import Mathlib

/-!
Verification of the MCTS circuit-topology generator core
(`src/core/topology_game_board.py` and `src/core/MCTS.py`).

The Python classes are embedded shallowly: the `Breadboard` state is a Lean
structure, its mutating methods become functions returning new states, and
methods that can raise exceptions return `Option` (with `none` marking the
raise).  Machine integers are `Nat`/`Int`; rewards are `Rat`.
-/

namespace Topology

/-- Mirrors `ComponentInfo` from `topology_game_board.py`. -/
structure ComponentInfo where
  pin_count : Nat
  vertical_only : Bool
  pin_names : List String
  can_place_multiple : Bool
deriving DecidableEq

/-- Mirrors `COMPONENT_CATALOG` (an ordered dict of component kinds). -/
def COMPONENT_CATALOG : List (String × ComponentInfo) :=
  [("resistor", ⟨2, true, ["p1", "p2"], true⟩),
   ("capacitor", ⟨2, true, ["p1", "p2"], true⟩),
   ("inductor", ⟨2, true, ["p1", "p2"], true⟩),
   ("diode", ⟨2, true, ["anode", "cathode"], true⟩),
   ("nmos3", ⟨3, true, ["drain", "gate", "source"], true⟩),
   ("pmos3", ⟨3, true, ["drain", "gate", "source"], true⟩),
   ("npn", ⟨3, true, ["collector", "base", "emitter"], true⟩),
   ("pnp", ⟨3, true, ["collector", "base", "emitter"], true⟩),
   ("vin", ⟨1, true, ["signal"], false⟩),
   ("vout", ⟨1, true, ["signal"], false⟩),
   ("wire", ⟨2, false, ["p1", "p2"], true⟩)]

/-- `COMPONENT_CATALOG.get(t)` (dict lookup returning `None` on a miss). -/
def catalogGet (t : String) : Option ComponentInfo :=
  (COMPONENT_CATALOG.find? (fun e => e.1 == t)).map (fun e => e.2)

/-- Mirrors `Component`: a placed part with its ordered pin rows and id. -/
structure Component where
  type : String
  pins : List Nat
  id : Nat
deriving DecidableEq

/-- Mirrors `PinRecord`. -/
structure PinRecord where
  component : Component
  pin_index : Nat
deriving DecidableEq

/-- Actions, the tagged union `(comp_type, start_row)` / `("wire", r1, r2)` /
`("STOP",)` used by `legal_actions` and `apply_action`. -/
inductive Action where
  | place (comp_type : String) (start_row : Nat)
  | wire (r1 r2 : Nat)
  | stop
deriving DecidableEq

/-- One step of parent lookup in the union-find array; out-of-range rows are
their own parent (the source never indexes out of range on reachable states). -/
def parentOf (p : List Nat) (x : Nat) : Nat := p.getD x x

/-- `find` without path compression: iterate the parent map `fuel` times.
Path compression in the source changes only the array layout, never the root
returned, so the embedded `find` agrees with the source on every state the
source can reach. -/
def ufFind (p : List Nat) (fuel r : Nat) : Nat := (parentOf p)^[fuel] r

/-- Mirrors the `Breadboard` state: one union-find entry per row, a pin index
per row, the placed components in order, the active net roots, and the placed
wires as sorted row pairs.  The derived row constants (`VSS_ROW` etc.) are
functions of `ROWS` below, exactly as `__init__` assigns them. -/
structure Breadboard where
  ROWS : Nat
  row_pin_index : List (List PinRecord)
  placed_components : List Component
  component_counter : Nat
  vin_placed : Bool
  vout_placed : Bool
  uf_parent : List Nat
  active_nets : List Nat
  placed_wires : List (Nat × Nat)
deriving DecidableEq

namespace Breadboard

def VSS_ROW (_ : Breadboard) : Nat := 0

def VDD_ROW (b : Breadboard) : Nat := b.ROWS - 1

def VIN_ROW (_ : Breadboard) : Nat := 1

def VOUT_ROW (b : Breadboard) : Nat := b.ROWS - 2

def WORK_START_ROW (_ : Breadboard) : Nat := 2

def WORK_END_ROW (b : Breadboard) : Nat := b.ROWS - 3

/-- `find`: root of the electrical net a row belongs to. -/
def find (b : Breadboard) (r : Nat) : Nat := ufFind b.uf_parent b.ROWS r

/-- Set insertion for the `active_nets` Python set. -/
def insertNet (s : List Nat) (x : Nat) : List Nat := if x ∈ s then s else s ++ [x]

/-- Mirrors `union`: unite two rows, with the rail-preferring and
active-preferring root choice of the source. -/
def union (b : Breadboard) (row1 row2 : Nat) : Breadboard :=
  let root1 := b.find row1
  let root2 := b.find row2
  if root1 = root2 then b
  else if root1 = b.VDD_ROW ∨ root1 = b.VSS_ROW then
    { b with uf_parent := b.uf_parent.set root2 root1 }
  else if root2 = b.VDD_ROW ∨ root2 = b.VSS_ROW then
    { b with uf_parent := b.uf_parent.set root1 root2 }
  else if root1 ∈ b.active_nets ∧ root2 ∈ b.active_nets then
    { b with uf_parent := b.uf_parent.set root2 root1,
             active_nets := b.active_nets.erase root2 }
  else if root1 ∈ b.active_nets then
    { b with uf_parent := b.uf_parent.set root2 root1 }
  else if root2 ∈ b.active_nets then
    { b with uf_parent := b.uf_parent.set root1 root2 }
  else
    { b with uf_parent := b.uf_parent.set root2 root1 }

/-- `is_empty`: a row holds no pins (and is in bounds). -/
def is_empty (b : Breadboard) (row : Nat) : Bool :=
  decide (row < b.ROWS) && (b.row_pin_index.getD row []).isEmpty

/-- `is_row_active`. -/
def is_row_active (b : Breadboard) (row : Nat) : Bool :=
  decide (b.find row ∈ b.active_nets)

/-- `pins_in_row` (empty for out-of-range rows, as in the source). -/
def pins_in_row (b : Breadboard) (row : Nat) : List PinRecord :=
  b.row_pin_index.getD row []

/-- `vin_placed` / `vout_placed` looked up by component name, mirroring
`getattr(self, f"{comp_type}_placed", False)`. -/
def placedFlag (b : Breadboard) (t : String) : Bool :=
  if t = "vin" then b.vin_placed else if t = "vout" then b.vout_placed else false

/-- First-occurrence deduplication, the observable content of a Python set
built by iterated insertion. -/
def dedupNats (l : List Nat) : List Nat :=
  l.foldl (fun acc x => if x ∈ acc then acc else acc ++ [x]) []

def dedupStrs (l : List String) : List String :=
  l.foldl (fun acc x => if x ∈ acc then acc else acc ++ [x]) []

/-- Insertion sort (the contents of Python `sorted` on a list of nets). -/
def insertSorted (x : Nat) : List Nat → List Nat
  | [] => [x]
  | y :: ys => if x ≤ y then x :: y :: ys else y :: insertSorted x ys

def sortNats (l : List Nat) : List Nat := l.foldr insertSorted []

/-- `tuple(sorted({self.find(r) for r in pins}))`: the canonical net signature
of a pin set. -/
def netSignature (b : Breadboard) (pins : List Nat) : List Nat :=
  sortNats (dedupNats (pins.map b.find))

/-- Mirrors `can_place_component`. -/
def can_place_component (b : Breadboard) (comp_type : String) (start_row : Nat) : Bool :=
  match catalogGet comp_type with
  | none => false
  | some info =>
    if comp_type = "wire" then false
    else if ¬ info.can_place_multiple ∧ b.placedFlag comp_type then false
    else
      let pin_rows := List.range' start_row info.pin_count
      if ¬ (b.WORK_START_ROW ≤ start_row ∧
            start_row + info.pin_count - 1 ≤ b.WORK_END_ROW) then false
      else if info.pin_count = 1 then ! b.is_row_active start_row
      else if ¬ pin_rows.any (fun r => b.is_row_active r) then false
      else if (dedupNats (pin_rows.map b.find)).length < 2 then false
      else if b.placed_components.any (fun c =>
          c.type == comp_type &&
          ! decide (c.type ∈ ["vin", "vout", "wire"]) &&
          netSignature b c.pins == netSignature b pin_rows) then false
      else true

/-- Sorted wire key, `tuple(sorted((r1, r2)))`. -/
def pairKey (a b : Nat) : Nat × Nat := (min a b, max a b)

def row_has_gate_pin (b : Breadboard) (row : Nat) : Bool :=
  (b.pins_in_row row).any (fun p =>
    (p.component.type == "nmos3" || p.component.type == "pmos3") && p.pin_index == 1)

def row_has_base_pin (b : Breadboard) (row : Nat) : Bool :=
  (b.pins_in_row row).any (fun p =>
    (p.component.type == "npn" || p.component.type == "pnp") && p.pin_index == 1)

def is_power_rail (b : Breadboard) (row : Nat) : Bool :=
  row == b.VDD_ROW || row == b.VSS_ROW

/-- Mirrors `_validate_control_pin_wiring`. -/
def validate_control_pin_wiring (b : Breadboard) (r1 r2 : Nat) : Bool :=
  if b.row_has_gate_pin r1 && b.is_power_rail r2 then false
  else if b.row_has_gate_pin r2 && b.is_power_rail r1 then false
  else if b.row_has_base_pin r1 && b.is_power_rail r2 then false
  else if b.row_has_base_pin r2 && b.is_power_rail r1 then false
  else true

/-- Mirrors `can_place_wire`.  Since `r1 ≠ r2` is checked first, equality of the
two-element endpoint set with a forbidden pair is equality of sorted keys. -/
def can_place_wire (b : Breadboard) (r1 r2 : Nat) : Bool :=
  if r1 = r2 then false
  else if pairKey r1 r2 ∈
      [pairKey b.VIN_ROW b.VSS_ROW, pairKey b.VOUT_ROW b.VDD_ROW,
       pairKey b.VSS_ROW b.VOUT_ROW, pairKey b.VIN_ROW b.VOUT_ROW] then false
  else if ¬ (r1 < b.ROWS ∧ r2 < b.ROWS) then false
  else if pairKey r1 r2 ∈ b.placed_wires then false
  else if ¬ (b.is_row_active r1 ∨ b.is_row_active r2) then false
  else if ¬ b.validate_control_pin_wiring r1 r2 then false
  else true

/-- Mirrors `_place_component` (the mutation succeeds for catalogued kinds with
all pin rows in range; otherwise the source raises `KeyError`/`IndexError`,
modeled as `none`). -/
def place_component (b : Breadboard) (comp_type : String) (start_row : Nat) :
    Option Breadboard :=
  match catalogGet comp_type with
  | none => none
  | some info =>
    let pins := List.range' start_row info.pin_count
    if pins.all (fun r => decide (r < b.ROWS)) then
      let comp : Component := ⟨comp_type, pins, b.component_counter + 1⟩
      some { b with
        component_counter := b.component_counter + 1,
        placed_components := b.placed_components ++ [comp],
        row_pin_index := comp.pins.enum.foldl
          (fun rows ir => rows.set ir.2 (rows.getD ir.2 [] ++ [⟨comp, ir.1⟩]))
          b.row_pin_index,
        active_nets := comp.pins.foldl (fun s r => insertNet s (b.find r)) b.active_nets,
        vin_placed := if comp_type = "vin" then true else b.vin_placed,
        vout_placed := if comp_type = "vout" then true else b.vout_placed }
    else none

/-- Mirrors `_place_wire` (raises `IndexError` on out-of-range rows, modeled as
`none`; otherwise records the pair, unions the rows, appends the wire component
and marks the merged root active). -/
def place_wire (b : Breadboard) (r1 r2 : Nat) : Option Breadboard :=
  if r1 < b.ROWS ∧ r2 < b.ROWS then
    let b0 := { b with placed_wires :=
      if (pairKey r1 r2 ∈ b.placed_wires) then b.placed_wires
      else b.placed_wires ++ [pairKey r1 r2] }
    let b1 := b0.union r1 r2
    some { b1 with
      component_counter := b1.component_counter + 1,
      placed_components := b1.placed_components ++
        [⟨"wire", [r1, r2], b1.component_counter + 1⟩],
      active_nets := insertNet b1.active_nets (b1.find r1) }
  else none

/-- Mirrors `apply_action`: clone-and-mutate; the `STOP` action returns the
clone unchanged; a raised exception is `none`.  Note the source checks only
that the internal placement call returned a component, not legality. -/
def apply_action (b : Breadboard) : Action → Option Breadboard
  | Action.stop => some b
  | Action.wire r1 r2 => b.place_wire r1 r2
  | Action.place t r => b.place_component t r

end Breadboard

/-- First placed component of a given type (`next((c for c in ... if c.type == t), None)`). -/
def firstOfType (b : Breadboard) (t : String) : Option Component :=
  b.placed_components.find? (fun c => c.type == t)

/-- Association-list lookup for the net-name dictionaries. -/
def lookupNet (m : List (Nat × String)) (r : Nat) : String :=
  ((m.find? (fun e => e.1 == r)).map (fun e => e.2)).getD ""

/-- State threaded through `_build_net_mapping`. -/
structure NetMapSt where
  row_to_net : List (Nat × String)
  root_to_net : List (Nat × String)
  net_counter : Nat

/-- Mirrors `_build_net_mapping`: walk every placed component's pins in order,
name each new union-find root (`"0"` for the ground root, `"VDD"` for the
supply root, else `"n<k>"` in discovery order) and record each row's net name. -/
def build_net_mapping (b : Breadboard) : List (Nat × String) :=
  let step : NetMapSt → Nat → NetMapSt := fun st row =>
    let root := b.find row
    let st1 :=
      match st.root_to_net.find? (fun e => e.1 == root) with
      | some _ => st
      | none =>
        if root = b.VSS_ROW then
          { st with root_to_net := st.root_to_net ++ [(root, "0")] }
        else if root = b.VDD_ROW then
          { st with root_to_net := st.root_to_net ++ [(root, "VDD")] }
        else
          let entry : Nat × String := (root, "n" ++ toString st.net_counter)
          { st with root_to_net := st.root_to_net ++ [entry],
                    net_counter := st.net_counter + 1 }
    { st1 with row_to_net := (row, lookupNet st1.root_to_net root) :: st1.row_to_net }
  let final := b.placed_components.foldl
    (fun st c => c.pins.foldl step st) ⟨[], [], 0⟩
  final.row_to_net

/-- Connectivity summary dictionary from `_compute_connectivity_summary`,
with one named field per dictionary key that the core reads. -/
structure ConnSummary where
  vin_present : Bool
  vout_present : Bool
  vin_net : Option String
  vout_net : Option String
  component_nets : List String
  visited_nets : List String
  touches_vdd : Bool
  touches_vss : Bool
  rails_vdd : Bool
  rails_vss : Bool
  reachable_vout : Bool
  all_components_reachable : Bool
  has_active_components : Bool
  vin_vout_distinct : Bool
  degenerate_component : Bool
  vin_on_power_rail : Bool
  vout_on_power_rail : Bool
  component_count : Nat
  valid : Bool
deriving DecidableEq

def defaultSummary (b : Breadboard) : ConnSummary :=
  { vin_present := b.vin_placed, vout_present := b.vout_placed,
    vin_net := none, vout_net := none, component_nets := [], visited_nets := [],
    touches_vdd := false, touches_vss := false, rails_vdd := false,
    rails_vss := false, reachable_vout := false,
    all_components_reachable := false, has_active_components := false,
    vin_vout_distinct := true, degenerate_component := false,
    vin_on_power_rail := false, vout_on_power_rail := false,
    component_count := 0, valid := false }

/-- `{row_to_net[row] for row in comp.pins}`: the distinct nets a component touches. -/
def compNets (m : List (Nat × String)) (c : Component) : List String :=
  Breadboard.dedupStrs (c.pins.map (fun r => lookupNet m r))

/-- All unordered pairs of a net list, the edges one component contributes to
the component adjacency graph. -/
def netPairs : List String → List (String × String)
  | [] => []
  | x :: xs => xs.map (fun y => (x, y)) ++ netPairs xs

/-- Accumulator of the component loop in `_compute_connectivity_summary`. -/
structure SummLoopSt where
  edges : List (String × String)
  component_nets : List String
  touches_vdd : Bool
  touches_vss : Bool
  has_active_components : Bool
  component_count : Nat

/-- The component loop; `none` models the early `return` on a degenerate
component (all pins on one net). -/
def summLoop (m : List (Nat × String)) :
    List Component → SummLoopSt → Option SummLoopSt
  | [], st => some st
  | c :: rest, st =>
    if c.type ∈ ["vin", "vout", "wire"] then summLoop m rest st
    else
      let nets := compNets m c
      if nets.length < 2 then none
      else summLoop m rest
        { edges := st.edges ++ netPairs nets,
          component_nets := st.component_nets ++
            nets.filter (fun x => decide (x ∉ st.component_nets)),
          touches_vdd := st.touches_vdd || decide ("VDD" ∈ nets),
          touches_vss := st.touches_vss || decide ("0" ∈ nets),
          has_active_components := true,
          component_count := st.component_count + 1 }

/-- Neighbors of a net in the undirected component adjacency graph. -/
def neighbors (edges : List (String × String)) (x : String) : List String :=
  edges.foldr (fun e acc =>
    if e.1 == x then e.2 :: acc else if e.2 == x then e.1 :: acc else acc) []

/-- One round of breadth-first expansion of the visited set. -/
def expandOnce (edges : List (String × String)) (v : List String) : List String :=
  Breadboard.dedupStrs (v ++ v.flatMap (neighbors edges))

/-- The set of nets the BFS from `start` visits: iterate expansion to the
fixpoint (one extra round per possible net suffices). -/
def reachClosure (edges : List (String × String)) (start : String) : List String :=
  (expandOnce edges)^[2 * edges.length + 1] [start]

/-- Mirrors `_compute_connectivity_summary` step by step, including every
early return. -/
def Breadboard.connectivitySummary (b : Breadboard) : ConnSummary :=
  let s0 := defaultSummary b
  if ¬ (b.vin_placed ∧ b.vout_placed) then s0
  else
    let m := build_net_mapping b
    match firstOfType b "vin", firstOfType b "vout" with
    | none, _ => s0
    | some _, none => s0
    | some vc, some oc =>
      let vin_net := lookupNet m (vc.pins.headD 0)
      let vout_net := lookupNet m (oc.pins.headD 0)
      let s1 := { s0 with vin_net := some vin_net, vout_net := some vout_net }
      if vin_net = "0" ∨ vin_net = "VDD" then { s1 with vin_on_power_rail := true }
      else if vout_net = "0" ∨ vout_net = "VDD" then { s1 with vout_on_power_rail := true }
      else if vin_net = vout_net then { s1 with vin_vout_distinct := false }
      else
        match summLoop m b.placed_components ⟨[], [], false, false, false, 0⟩ with
        | none => { s1 with degenerate_component := true }
        | some st =>
          let s2 := { s1 with has_active_components := st.has_active_components,
                              component_count := st.component_count }
          if ¬ st.has_active_components then s2
          else
            let visited := reachClosure st.edges vin_net
            { s2 with
              touches_vdd := st.touches_vdd,
              touches_vss := st.touches_vss,
              visited_nets := visited,
              reachable_vout := decide (vout_net ∈ visited),
              all_components_reachable :=
                st.component_nets.all (fun x => decide (x ∈ visited)),
              rails_vdd := decide ("VDD" ∈ visited),
              rails_vss := decide ("0" ∈ visited),
              component_nets := st.component_nets,
              valid := decide (2 ≤ st.component_count) &&
                decide (vout_net ∈ visited) &&
                st.component_nets.all (fun x => decide (x ∈ visited)) &&
                st.has_active_components && st.touches_vdd && st.touches_vss }

/-- Mirrors `_validate_gate_base_connections`. -/
def Breadboard.validate_gate_base_connections (b : Breadboard) : Bool :=
  b.placed_components.all (fun c =>
    if c.type == "nmos3" || c.type == "pmos3" then
      ! (c.pins.getD 1 0 == b.VDD_ROW || c.pins.getD 1 0 == b.VSS_ROW)
    else if c.type == "npn" || c.type == "pnp" then
      ! (c.pins.getD 1 0 == b.VDD_ROW || c.pins.getD 1 0 == b.VSS_ROW)
    else true)

/-- Mirrors `is_complete_and_valid`. -/
def Breadboard.is_complete_and_valid (b : Breadboard) : Bool :=
  b.vin_placed && b.vout_placed && b.connectivitySummary.valid &&
    b.validate_gate_base_connections

/-- The non-wire, non-probe components of a board. -/
def activeComps (b : Breadboard) : List Component :=
  b.placed_components.filter (fun c => decide (c.type ∉ ["wire", "vin", "vout"]))

namespace Breadboard

/-- Mirrors `_add_component_actions`: for each catalogued kind except wire, all
start rows from `VIN_ROW` through `VOUT_ROW - (pin_count - 1)` that pass
`can_place_component`. -/
def componentActions (b : Breadboard) : List Action :=
  COMPONENT_CATALOG.flatMap (fun ci =>
    if ci.1 = "wire" then []
    else
      let max_start := b.VOUT_ROW - (ci.2.pin_count - 1)
      ((List.range' b.VIN_ROW (max_start + 1 - b.VIN_ROW)).filter
        (fun r => b.can_place_component ci.1 r)).map (Action.place ci.1))

/-- Inner loop of `_add_wire_actions`: scan candidate second endpoints,
skipping pairs already seen and recording new legal wires. -/
def wireActionsInner (b : Breadboard) (r1 : Nat) :
    List Nat → List (Nat × Nat) → List Action × List (Nat × Nat)
  | [], seen => ([], seen)
  | r2 :: rest, seen =>
    if (pairKey r1 r2 ∈ seen) then b.wireActionsInner r1 rest seen
    else if b.can_place_wire r1 r2 then
      let res := b.wireActionsInner r1 rest (pairKey r1 r2 :: seen)
      (Action.wire r1 r2 :: res.1, res.2)
    else b.wireActionsInner r1 rest seen

/-- Outer loop of `_add_wire_actions` over the active rows. -/
def wireActionsOuter (b : Breadboard) :
    List Nat → List (Nat × Nat) → List Action
  | [], _ => []
  | r1 :: rest, seen =>
    let res := b.wireActionsInner r1 (List.range b.ROWS) seen
    res.1 ++ b.wireActionsOuter rest res.2

def wireActions (b : Breadboard) : List Action :=
  b.wireActionsOuter ((List.range b.ROWS).filter (fun r => b.is_row_active r)) []

/-- Mirrors `_add_stop_action_if_valid`. -/
def stopActions (b : Breadboard) : List Action :=
  if b.is_complete_and_valid && decide (1 ≤ (activeComps b).length) then
    [Action.stop]
  else []

/-- Mirrors `legal_actions`: component placements, then wires, then STOP. -/
def legal_actions (b : Breadboard) : List Action :=
  b.componentActions ++ b.wireActions ++ b.stopActions

/-- The board as `__init__` leaves it before placing the probes. -/
def blank (rows : Nat) : Breadboard :=
  { ROWS := rows,
    row_pin_index := List.replicate rows [],
    placed_components := [],
    component_counter := 0,
    vin_placed := false,
    vout_placed := false,
    uf_parent := List.range rows,
    active_nets := insertNet (insertNet (insertNet (insertNet [] 0) (rows - 1)) 1) (rows - 2),
    placed_wires := [] }

/-- The freshly constructed board: `__init__` after its row-count guard,
placing the VIN and VOUT probes on their reserved rows.  (Both placements
succeed for any `rows ≥ 6`; the `getD` default is never reached then.) -/
def fresh (rows : Nat) : Breadboard :=
  (((blank rows).place_component "vin" 1).bind
    (fun b => b.place_component "vout" (rows - 2))).getD (blank rows)

/-- Mirrors `Breadboard.__init__` including its `ValueError` guards on the row
count (`none` models the raise). -/
def init (rows : Nat) : Option Breadboard :=
  if rows < 6 then none
  else if rows - 3 < 2 then none
  else some (fresh rows)

/-- Replay a sequence of actions from a board, failing if any application
raises. -/
def replay (b : Breadboard) (as : List Action) : Option Breadboard :=
  as.foldlM (fun s a => s.apply_action a) b

end Breadboard

/-- Boards reachable from a fresh board by applying legal actions — exactly
the states the MCTS tree can contain (`MCTSNode.expand` applies an action
drawn from `legal_actions`). -/
inductive Reachable : Breadboard → Prop where
  | base (rows : Nat) (h : 6 ≤ rows) : Reachable (Breadboard.fresh rows)
  | step {b b' : Breadboard} {a : Action} : Reachable b → a ∈ b.legal_actions →
      b.apply_action a = some b' → Reachable b'

/-! ### Netlist serialization (`to_netlist` and its helpers) -/

def generate_netlist_header : List String :=
  ["* Auto-generated SPICE netlist from MCTS topology generator", ""]

def generate_device_models : List String :=
  ["* Device models",
   ".model DMOD D",
   ".model NMOS_MODEL NMOS (LEVEL=1 VTO=0.7 KP=20u)",
   ".model PMOS_MODEL PMOS (LEVEL=1 VTO=-0.7 KP=10u)",
   ".model NPN_MODEL NPN (BF=100)",
   ".model PNP_MODEL PNP (BF=100)",
   ""]

def generate_power_supply : List String :=
  ["* Power supply", "VDD VDD 0 DC 5V", ""]

def generate_simulation_commands : List String :=
  ["* Simulation commands", ".ac dec 100 1 1MEG", ".end"]

/-- Prefix and counter key from `_get_component_id` (MOSFETs share one
counter, BJTs another). -/
def compPrefixKey (t : String) : String × String :=
  if t = "nmos3" ∨ t = "pmos3" then ("M", "mosfet")
  else if t = "npn" ∨ t = "pnp" then ("Q", "bjt")
  else if t = "resistor" then ("R", t)
  else if t = "capacitor" then ("C", t)
  else if t = "inductor" then ("L", t)
  else if t = "diode" then ("D", t)
  else if t = "vin" then ("V", t)
  else if t = "vout" then ("V", t)
  else ((t.take 1).toUpper, t)

def bumpCounter (cs : List (String × Nat)) (k : String) : Nat × List (String × Nat) :=
  let cur := ((cs.find? (fun e => e.1 == k)).map (fun e => e.2)).getD 0
  (cur + 1, (k, cur + 1) :: cs.filter (fun e => ! (e.1 == k)))

/-- Mirrors `_format_component_spice_line`. -/
def format_component_spice_line (t cid : String) (pin_nets : List String) :
    Option String :=
  let p := fun i => pin_nets.getD i ""
  if t = "resistor" then some (cid ++ " " ++ p 0 ++ " " ++ p 1 ++ " 1k")
  else if t = "capacitor" then some (cid ++ " " ++ p 0 ++ " " ++ p 1 ++ " 1u")
  else if t = "inductor" then some (cid ++ " " ++ p 0 ++ " " ++ p 1 ++ " 1m")
  else if t = "diode" then some (cid ++ " " ++ p 0 ++ " " ++ p 1 ++ " DMOD")
  else if t = "nmos3" then
    some (cid ++ " " ++ p 0 ++ " " ++ p 1 ++ " " ++ p 2 ++ " 0 NMOS_MODEL L=1u W=10u")
  else if t = "pmos3" then
    some (cid ++ " " ++ p 0 ++ " " ++ p 1 ++ " " ++ p 2 ++ " VDD PMOS_MODEL L=1u W=10u")
  else if t = "npn" then
    some (cid ++ " " ++ p 0 ++ " " ++ p 1 ++ " " ++ p 2 ++ " NPN_MODEL")
  else if t = "pnp" then
    some (cid ++ " " ++ p 0 ++ " " ++ p 1 ++ " " ++ p 2 ++ " PNP_MODEL")
  else none

/-- Mirrors `_generate_input_source`. -/
def generate_input_source (b : Breadboard) (m : List (Nat × String)) : List String :=
  match firstOfType b "vin" with
  | some c => ["* Input signal", "VIN " ++ lookupNet m (c.pins.headD 0) ++ " 0 AC 1V", ""]
  | none => []

/-- Mirrors `_generate_output_probe`. -/
def generate_output_probe (b : Breadboard) (m : List (Nat × String)) : List String :=
  match firstOfType b "vout" with
  | some c =>
    ["* Output probe", ".print ac v(" ++ lookupNet m (c.pins.headD 0) ++ ")", ""]
  | none => []

/-- Mirrors `_generate_circuit_components` (counters still advance even when a
line is skipped, as in the source). -/
def generate_circuit_components (b : Breadboard) (m : List (Nat × String)) :
    List String :=
  let res := b.placed_components.foldl
    (fun (acc : List String × List (String × Nat)) c =>
      if c.type ∈ ["vin", "vout", "wire"] then acc
      else
        let pk := compPrefixKey c.type
        let bumped := bumpCounter acc.2 pk.2
        let cid := pk.1 ++ toString bumped.1
        let nets := c.pins.map (lookupNet m)
        match format_component_spice_line c.type cid nets with
        | some line => (acc.1 ++ [line], bumped.2)
        | none => (acc.1, bumped.2))
    (["* Circuit components"], [])
  res.1 ++ [""]

/-- Mirrors `to_netlist`: `None` unless complete and valid, otherwise the
joined netlist sections in source order. -/
def Breadboard.to_netlist (b : Breadboard) : Option String :=
  if ¬ b.is_complete_and_valid then none
  else
    let m := build_net_mapping b
    some (String.intercalate "\n"
      (generate_netlist_header ++ generate_device_models ++
       generate_power_supply ++ generate_input_source b m ++
       generate_circuit_components b m ++ generate_output_probe b m ++
       generate_simulation_commands))

/-! ### MCTS reward evaluation (`MCTS.py`) -/

def INCOMPLETE_REWARD_CAP : Rat := 40

def COMPLETION_BASELINE_REWARD : Rat := 45

/-- Circuit metrics dictionary from `_calculate_circuit_metrics`. -/
structure Metrics where
  num_components : Nat
  num_wires : Nat
  unique_types : Nat
  vin_row : Int
  vout_row : Int
  vin_vout_connected : Bool
  touches_vdd : Bool
  touches_vss : Bool
  supply_connected : Bool
  has_active_components : Bool
  vin_on_power_rail : Bool
  vout_on_power_rail : Bool
  degenerate_component : Bool
  vin_vout_distinct : Bool
  connectivity : ConnSummary
deriving DecidableEq

/-- The source expression `c.pins[0][0]` first takes `c.pins[0]`, which in this
board model is an integer row index, and then subscripts that integer — a
`TypeError` at run time, modeled as `none`.  (An empty pin list would raise
`IndexError`, likewise `none`.) -/
def pinRowSubscript (c : Component) : Option Int :=
  c.pins.head?.bind (fun _ => none)

/-- Mirrors `_calculate_circuit_metrics`; `none` models the uncaught exception
raised while evaluating `vin_row`/`vout_row`. -/
def calculate_circuit_metrics (b : Breadboard) : Option Metrics := do
  let conn := b.connectivitySummary
  let vin_row : Int ← match firstOfType b "vin" with
    | some c => pinRowSubscript c
    | none => pure (-1)
  let vout_row : Int ← match firstOfType b "vout" with
    | some c => pinRowSubscript c
    | none => pure (-1)
  pure {
    num_components := (activeComps b).length,
    num_wires := (b.placed_components.filter (fun c => c.type == "wire")).length,
    unique_types := (Breadboard.dedupStrs ((activeComps b).map (fun c => c.type))).length,
    vin_row := vin_row,
    vout_row := vout_row,
    vin_vout_connected := conn.reachable_vout,
    touches_vdd := conn.touches_vdd,
    touches_vss := conn.touches_vss,
    supply_connected := conn.rails_vdd && conn.rails_vss,
    has_active_components := conn.has_active_components,
    vin_on_power_rail := conn.vin_on_power_rail,
    vout_on_power_rail := conn.vout_on_power_rail,
    degenerate_component := conn.degenerate_component,
    vin_vout_distinct := conn.vin_vout_distinct,
    connectivity := conn }

/-- Mirrors `_calculate_connection_bonus`. -/
def calculate_connection_bonus (m : Metrics) : Rat :=
  let base : Rat :=
    if m.vin_vout_connected then
      if 0 < m.num_components then 20 else 5
    else -2
  if 0 < m.num_components ∧ m.supply_connected then base + 10 else base

/-- Mirrors `_calculate_heuristic_reward`. -/
def calculate_heuristic_reward (m : Metrics) : Rat :=
  let connection_bonus := calculate_connection_bonus m
  if m.vin_on_power_rail ∨ m.vout_on_power_rail then -25
  else if ¬ m.vin_vout_distinct then -20
  else if m.degenerate_component then -15
  else
    let h : Rat := (m.num_components : Rat) * 5 + (m.unique_types : Rat) * 8 +
      connection_bonus
    let h := if m.connectivity.touches_vdd then h + 8 else h
    let h := if m.connectivity.touches_vss then h + 8 else h
    let h := if m.connectivity.reachable_vout then h + 15 else h
    let h := if m.connectivity.all_components_reachable then h + 10 else h
    h

/-- Outcome of one oracle call (`run_ac_simulation` followed by
`calculate_reward_from_simulation`), consumed as an opaque collaborator: it
either raises (process failure, timeout, parse error — the `except` branch) or
returns a numeric score. -/
inductive Oracle where
  | exn
  | score (q : Rat)

/-- Mirrors `_baseline_completion_reward` (`num_components` is a count, so the
source's `max(0, ·)` is kept verbatim on the cast). -/
def baseline_completion_reward (num_components : Nat) : Rat :=
  COMPLETION_BASELINE_REWARD + ((max 0 (num_components : Int) : Int) : Rat)

/-- Mirrors `_calculate_final_reward`. -/
def calculate_final_reward (q : Rat) (m : Metrics) : Rat :=
  let complexity_bonus : Rat := (m.unique_types : Rat) * 5 + (m.num_components : Rat) * 2
  max (q + complexity_bonus) (baseline_completion_reward m.num_components)

/-- Mirrors `_evaluate_with_spice` (the `heuristic_reward` argument is passed
but, as in the source, never used in any return path). -/
def evaluate_with_spice (b : Breadboard) (m : Metrics) (heuristic_reward : Rat)
    (o : Oracle) : Rat :=
  let _ := heuristic_reward
  match b.to_netlist with
  | none => baseline_completion_reward m.num_components
  | some netlist =>
    if netlist = "" then baseline_completion_reward m.num_components
    else
      match o with
      | Oracle.exn => baseline_completion_reward m.num_components
      | Oracle.score q =>
        if 0 < q then calculate_final_reward q m
        else baseline_completion_reward m.num_components

/-- Mirrors `MCTS._evaluate_circuit`; `none` models an uncaught exception
escaping the evaluation. -/
def evaluate_circuit (b : Breadboard) (o : Oracle) : Option Rat := do
  let m ← calculate_circuit_metrics b
  let heuristic_reward := calculate_heuristic_reward m
  if b.is_complete_and_valid ∧ 1 ≤ m.num_components then
    pure (evaluate_with_spice b m heuristic_reward o)
  else
    pure (max 0 (min heuristic_reward INCOMPLETE_REWARD_CAP))

/-! ### Reachability helpers and spec-side notions -/

/-- Bool check that a whole action sequence is legal step by step. -/
def legalChainB (b : Breadboard) : List Action → Bool
  | [] => true
  | a :: rest =>
    decide (a ∈ b.legal_actions) &&
      (match b.apply_action a with
       | some b2 => legalChainB b2 rest
       | none => false)

/-- The state stored at a search-tree node whose path from the root is `as`:
`MCTSNode.expand` pops an untried action (initialized from `legal_actions`)
and stores `state.apply_action(action)` in the new child, so every node state
arises from its parent state by one legal action. -/
inductive NodeState (rows : Nat) : List Action → Breadboard → Prop where
  | root : NodeState rows [] (Breadboard.fresh rows)
  | child {as : List Action} {b : Breadboard} {a : Action} {b' : Breadboard} :
      NodeState rows as b → a ∈ b.legal_actions → b.apply_action a = some b' →
      NodeState rows (as ++ [a]) b'

/-- Two rows joined directly by a placed wire. -/
def wireStep (b : Breadboard) (x y : Nat) : Prop :=
  Breadboard.pairKey x y ∈ b.placed_wires

/-- Reachability between rows through placed wires (the spec's notion of how
a net becomes active). -/
def wireReach (b : Breadboard) (x y : Nat) : Prop :=
  Relation.ReflTransGen (wireStep b) x y

/-- A rail row, a probe row, or a row that holds a placed component pin. -/
def specialRow (b : Breadboard) (s : Nat) : Prop :=
  s = b.VSS_ROW ∨ s = b.VDD_ROW ∨ s = b.VIN_ROW ∨ s = b.VOUT_ROW ∨
    b.pins_in_row s ≠ []

/-- C2's claimed offer condition for `PlaceComponent{kind, start_row}`: the
multiplicity constraint, all pin rows strictly inside the work area, every pin
row currently unoccupied, at least one pin row on an active net, the pin set
not collapsing onto a single net, and no already-placed component of the same
kind spanning the identical set of nets. -/
def specComponentOffer (b : Breadboard) (kind : String) (start_row : Nat) : Prop :=
  match catalogGet kind with
  | none => False
  | some info =>
    kind ≠ "wire" ∧
    (info.can_place_multiple = false → b.placedFlag kind = false) ∧
    b.WORK_START_ROW ≤ start_row ∧
    start_row + info.pin_count - 1 ≤ b.WORK_END_ROW ∧
    (∀ r ∈ List.range' start_row info.pin_count, b.is_empty r = true) ∧
    (∃ r ∈ List.range' start_row info.pin_count, b.is_row_active r = true) ∧
    2 ≤ (Breadboard.dedupNats ((List.range' start_row info.pin_count).map b.find)).length ∧
    (∀ c ∈ b.placed_components, c.type = kind →
      Breadboard.netSignature b c.pins ≠
        Breadboard.netSignature b (List.range' start_row info.pin_count))

/-- C2's offer condition with the unenforced "every pin row currently
unoccupied" requirement removed — the rest is unchanged. -/
def specComponentOfferAmended (b : Breadboard) (kind : String) (start_row : Nat) : Prop :=
  match catalogGet kind with
  | none => False
  | some info =>
    kind ≠ "wire" ∧
    (info.can_place_multiple = false → b.placedFlag kind = false) ∧
    b.WORK_START_ROW ≤ start_row ∧
    start_row + info.pin_count - 1 ≤ b.WORK_END_ROW ∧
    (∃ r ∈ List.range' start_row info.pin_count, b.is_row_active r = true) ∧
    2 ≤ (Breadboard.dedupNats ((List.range' start_row info.pin_count).map b.find)).length ∧
    (∀ c ∈ b.placed_components, c.type = kind →
      Breadboard.netSignature b c.pins ≠
        Breadboard.netSignature b (List.range' start_row info.pin_count))

/-- The component adjacency graph over net names, rebuilt from the claim's
words: every non-wire, non-probe component contributes an edge between every
pair of distinct nets its pins touch. -/
def specAdjacency (b : Breadboard) (m : List (Nat × String)) :
    List (String × String) :=
  (activeComps b).flatMap (fun c => netPairs (compNets m c))

/-- Net of the input probe (first `vin` component's pin row). -/
def specInputNet (b : Breadboard) (m : List (Nat × String)) : String :=
  lookupNet m (((firstOfType b "vin").map (fun c => c.pins.headD 0)).getD 0)

/-- Net of the output probe. -/
def specOutputNet (b : Breadboard) (m : List (Nat × String)) : String :=
  lookupNet m (((firstOfType b "vout").map (fun c => c.pins.headD 0)).getD 0)

/-- C5's claimed `valid` formula: non-wire non-probe component count at least
two, output net in the BFS-visited set rooted at the input net, every
component-touched net in the visited set, some component touching the supply
net, and some component touching the ground net. -/
def specValidC5 (b : Breadboard) : Prop :=
  let m := build_net_mapping b
  let visited := reachClosure (specAdjacency b m) (specInputNet b m)
  2 ≤ (activeComps b).length ∧
  specOutputNet b m ∈ visited ∧
  (∀ c ∈ activeComps b, ∀ x ∈ compNets m c, x ∈ visited) ∧
  (∃ c ∈ activeComps b, "VDD" ∈ compNets m c) ∧
  (∃ c ∈ activeComps b, "0" ∈ compNets m c)

/-- C5's `valid` formula amended with the validator's additional early
rejections: the input and output nets must not be rail nets, must be distinct,
and no placed component may be degenerate (pins all on one net). -/
def specValidC5Amended (b : Breadboard) : Prop :=
  let m := build_net_mapping b
  let visited := reachClosure (specAdjacency b m) (specInputNet b m)
  specInputNet b m ≠ "0" ∧ specInputNet b m ≠ "VDD" ∧
  specOutputNet b m ≠ "0" ∧ specOutputNet b m ≠ "VDD" ∧
  specInputNet b m ≠ specOutputNet b m ∧
  (∀ c ∈ activeComps b, 2 ≤ (compNets m c).length) ∧
  2 ≤ (activeComps b).length ∧
  specOutputNet b m ∈ visited ∧
  (∀ c ∈ activeComps b, ∀ x ∈ compNets m c, x ∈ visited) ∧
  (∃ c ∈ activeComps b, "VDD" ∈ compNets m c) ∧
  (∃ c ∈ activeComps b, "0" ∈ compNets m c)

/-! ### Union-find invariants -/

/-- A union-find root: its own parent. -/
def IsRoot (p : List Nat) (x : Nat) : Prop := parentOf p x = x

/-- Number of roots among the array indices; `length - numRoots` bounds every
parent-chain length, which makes the fuel in `ufFind` sufficient. -/
def numRoots (p : List Nat) : Nat :=
  ((Finset.range p.length).filter (fun i => parentOf p i = i)).card

/-- Structural invariants of every reachable board: the union-find array is
well formed and settles within its fuel, wires and pins stay in range and off
the rails, `find`-equivalence coincides with wire reachability, and a net is
active exactly when its class contains a rail, a probe row, or a pin row. -/
structure Inv (b : Breadboard) : Prop where
  hrows : 6 ≤ b.ROWS
  hlen : b.uf_parent.length = b.ROWS
  hbound : ∀ i, i < b.ROWS → parentOf b.uf_parent i < b.ROWS
  hsettle : ∀ i, i < b.ROWS →
    IsRoot b.uf_parent (ufFind b.uf_parent (b.ROWS - numRoots b.uf_parent) i)
  hpinlen : b.row_pin_index.length = b.ROWS
  hwires : ∀ w ∈ b.placed_wires, w.1 < w.2 ∧ w.2 < b.ROWS
  hpins : ∀ r, b.pins_in_row r ≠ [] →
    (2 ≤ r ∧ r ≤ b.ROWS - 3) ∨ r = b.VIN_ROW ∨ r = b.VOUT_ROW
  hclass : ∀ i, i < b.ROWS → ∀ j, j < b.ROWS →
    (b.find i = b.find j ↔ wireReach b i j)
  hactive : ∀ r, r < b.ROWS →
    (b.find r ∈ b.active_nets ↔
      ∃ s, s < b.ROWS ∧ b.find s = b.find r ∧ specialRow b s)

/-! ### Concrete boards used in the theorems -/

/-- Action sequence building a complete, valid three-resistor divider on an
eight-row board: input → R1 → mid, mid → R2 → ground side, ground → R3 → supply. -/
def completeActs : List Action :=
  [Action.wire 1 2, Action.place "resistor" 2, Action.wire 3 6, Action.wire 0 4,
   Action.place "resistor" 3, Action.wire 7 5, Action.place "resistor" 4]

/-- A reachable complete-and-valid board. -/
def boardComplete : Breadboard :=
  ((Breadboard.fresh 8).replay completeActs).getD (Breadboard.fresh 8)

/-- A minimal reachable board whose work rows 2 and 3 hold a resistor. -/
def boardOccupied : Breadboard :=
  ((Breadboard.fresh 6).replay [Action.wire 1 2, Action.place "resistor" 2]).getD
    (Breadboard.fresh 6)

/-- Actions that first short the input row into the ground rail (legal: only
the four literal rail/probe row pairs are forbidden) and then build a
two-resistor chain from that net up to the supply, with the output wired to
the middle. -/
def vinGroundedActs : List Action :=
  [Action.wire 1 2, Action.wire 0 2, Action.place "resistor" 2, Action.wire 3 6,
   Action.wire 7 4, Action.place "resistor" 3]

/-- A reachable board whose input probe sits on the ground net. -/
def boardVinGrounded : Breadboard :=
  ((Breadboard.fresh 8).replay vinGroundedActs).getD (Breadboard.fresh 8)

/-! ### Helper lemmas -/

theorem reachable_of_replay {b : Breadboard} (hb : Reachable b) (as : List Action)
    {c : Breadboard} (hl : legalChainB b as = true) (hc : b.replay as = some c) :
    Reachable c := by
  induction as generalizing b with
  | nil =>
    simp [Breadboard.replay] at hc
    exact hc ▸ hb
  | cons a rest ih =>
    simp only [legalChainB, Bool.and_eq_true] at hl
    obtain ⟨h1, h2⟩ := hl
    cases h3 : b.apply_action a with
    | none => rw [h3] at h2; simp at h2
    | some b2 =>
      rw [h3] at h2
      simp only [Breadboard.replay, List.foldlM_cons, h3] at hc
      exact ih (Reachable.step hb (by simpa using h1) h3) h2 hc

theorem replay_append (b : Breadboard) (l1 l2 : List Action) :
    b.replay (l1 ++ l2) = (b.replay l1).bind (fun c => c.replay l2) := by
  simp only [Breadboard.replay, List.foldlM_append]
  cases List.foldlM (fun s a => s.apply_action a) b l1 <;> rfl

/-! ### Claim theorems -/

/-- **C1** (code bug evidence): on the fresh six-row board the wire action
`(2, 3)` joins two inactive work rows, so it is absent from `legal_actions()`;
yet `apply_action` neither raises nor no-ops — it returns a new board with the
wire placed, because `_place_component`/`_place_wire` never return `None` and
the `raise ValueError` branch is unreachable. -/
theorem claim1_illegal_action_applied_silently :
    Action.wire 2 3 ∉ (Breadboard.fresh 6).legal_actions ∧
    ((Breadboard.fresh 6).apply_action (Action.wire 2 3)).isSome = true ∧
    (((Breadboard.fresh 6).apply_action (Action.wire 2 3)).getD
      (Breadboard.fresh 6)).placed_wires = [(2, 3)] := by
  decide

/-- **C3** (code bug evidence): the MCTS evaluation crashes before any reward
is produced: `_calculate_circuit_metrics` evaluates `c.pins[0][0]` for the
always-present `vin` component, subscripting an integer, so on the standard
fresh board the metric computation and hence the whole evaluation yield no
value for any oracle outcome — no reward ordering can hold. -/
theorem claim3_evaluation_crashes_before_reward (o : Oracle) :
    calculate_circuit_metrics (Breadboard.fresh 15) = none ∧
    evaluate_circuit (Breadboard.fresh 15) o = none := by
  have h : calculate_circuit_metrics (Breadboard.fresh 15) = none := by decide
  exact ⟨h, by simp [evaluate_circuit, h]⟩

/-- **C4** (code bug evidence): `boardComplete` is a reachable complete and
valid circuit with three components, yet for every oracle outcome — including
oracle failure — the evaluation returns no reward at all (the `TypeError` in
`_calculate_circuit_metrics` escapes before `_evaluate_with_spice` can return
the completion floor). -/
theorem claim4_complete_board_evaluation_crashes (o : Oracle) :
    boardComplete.is_complete_and_valid = true ∧
    1 ≤ (activeComps boardComplete).length ∧
    evaluate_circuit boardComplete o = none := by
  have h : calculate_circuit_metrics boardComplete = none := by decide
  exact ⟨by decide, by decide, by simp [evaluate_circuit, h]⟩

/-- **C7** (counterexample): on the fresh six-row board row `0` resolves to
the ground rail root, yet `union(5, 0)` leaves the supply row `5` as the
representative — the merged net's root is the *first* argument's rail, so "the
representative is that rail row, regardless of argument order" fails when both
endpoints resolve to rails. -/
theorem claim7_counterexample :
    Reachable (Breadboard.fresh 6) ∧
    (Breadboard.fresh 6).find 0 = (Breadboard.fresh 6).VSS_ROW ∧
    (Breadboard.fresh 6).find 5 = (Breadboard.fresh 6).VDD_ROW ∧
    ((Breadboard.fresh 6).union 5 0).find 0 = 5 := by
  exact ⟨Reachable.base 6 (by norm_num), by decide, by decide, by decide⟩

/-- **C8** (counterexample): the freshly constructed minimum board already
offers wire actions — for example the ground rail to work row 2 — because a
wire needs only one endpoint on an active net and the rails and probe rows are
active from the start. -/
theorem claim8_counterexample :
    Action.wire 0 2 ∈ (Breadboard.fresh 6).legal_actions := by decide

/-- **C8** (amended): a fresh board of the minimum row count has exactly two
placed components, the input and output probes, and zero legal
component-placement actions (wire actions, by contrast, are available
immediately). -/
theorem claim8_amended :
    Breadboard.init 6 = some (Breadboard.fresh 6) ∧
    (Breadboard.fresh 6).placed_components.map Component.type = ["vin", "vout"] ∧
    (Breadboard.fresh 6).componentActions = [] := by decide

/-- **C9**: the state stored at any search-tree node equals the result of
replaying the node's action path, in order, on a freshly constructed root
board of the same row count. -/
theorem claim9_replay_roundtrip {rows : Nat} {as : List Action} {b : Breadboard}
    (h : NodeState rows as b) : (Breadboard.fresh rows).replay as = some b := by
  induction h with
  | root => rfl
  | child hns hlegal happ ih =>
    rename_i as' bmid a b'
    rw [replay_append, ih]
    simpa [Breadboard.replay] using happ

/-- Witness for C9 at a concrete one-action path. -/
theorem claim9_replay_roundtrip_witness :
    (Breadboard.fresh 6).replay [Action.wire 1 2] =
      some (((Breadboard.fresh 6).apply_action (Action.wire 1 2)).getD
        (Breadboard.fresh 6)) :=
  claim9_replay_roundtrip
    (NodeState.child NodeState.root (by decide) (by decide))

/-- **C2** (counterexample): on `boardOccupied`, rows 2 and 3 already hold a
resistor, so the claimed "every pin row is currently unoccupied" condition
fails for `PlaceComponent{capacitor, 2}` — yet `legal_actions()` offers it:
`can_place_component` never checks occupancy. -/
theorem claim2_counterexample :
    Action.place "capacitor" 2 ∈ boardOccupied.legal_actions ∧
    boardOccupied.is_empty 2 = false ∧
    ¬ specComponentOffer boardOccupied "capacitor" 2 := by
  refine ⟨by decide, by decide, ?_⟩
  intro h
  have hc : catalogGet "capacitor" = some ⟨2, true, ["p1", "p2"], true⟩ := rfl
  unfold specComponentOffer at h
  rw [hc] at h
  obtain ⟨-, -, -, -, hocc, -⟩ := h
  exact absurd (hocc 2 (by decide)) (by decide)

/-- **C6** (counterexample): on the reachable board `boardOccupied` the net of
row 3 is active (its root is in `active_nets`) although row 3 is not reachable
from any rail or probe row through the placed wires — placing a component
activates its pin nets without any wire. -/
theorem claim6_counterexample :
    Reachable boardOccupied ∧
    boardOccupied.find 3 ∈ boardOccupied.active_nets ∧
    ∀ s, (s = boardOccupied.VSS_ROW ∨ s = boardOccupied.VDD_ROW ∨
          s = boardOccupied.VIN_ROW ∨ s = boardOccupied.VOUT_ROW) →
      ¬ wireReach boardOccupied s 3 := by
  refine ⟨reachable_of_replay (Reachable.base 6 (by norm_num))
    [Action.wire 1 2, Action.place "resistor" 2] (by decide) (by decide),
    by decide, ?_⟩
  have key : ∀ x y, wireReach boardOccupied x y → x = y ∨ (x ∈ [1, 2] ∧ y ∈ [1, 2]) := by
    intro x y h
    induction h with
    | refl => exact Or.inl rfl
    | tail hxz hstep ih =>
      have hw : boardOccupied.placed_wires = [(1, 2)] := by decide
      rename_i z w
      have hkey : Breadboard.pairKey z w ∈ boardOccupied.placed_wires := hstep
      rw [hw] at hkey
      simp only [List.mem_singleton, Breadboard.pairKey, Prod.mk.injEq] at hkey
      have hzw : (z = 1 ∧ w = 2) ∨ (z = 2 ∧ w = 1) := by omega
      rcases ih with rfl | ⟨hx, hz⟩
      · rcases hzw with ⟨rfl, rfl⟩ | ⟨rfl, rfl⟩ <;> simp
      · rcases hzw with ⟨rfl, rfl⟩ | ⟨rfl, rfl⟩ <;> simp [hx]
  intro s hs hreach
  rcases key s 3 hreach with rfl | ⟨-, h2⟩
  · revert hs; decide
  · simp at h2

/-- **C5** (counterexample): `boardVinGrounded` is reachable, has both probes,
no transistor pins, and satisfies the claimed validity formula (two
components, output net BFS-reachable from the input net, all component nets
visited, supply and ground touched) — yet `is_complete_and_valid()` is false,
because the validator first rejects any board whose input probe sits on a rail
net, a condition the claimed formula omits. -/
theorem claim5_counterexample :
    Reachable boardVinGrounded ∧
    boardVinGrounded.vin_placed = true ∧
    boardVinGrounded.vout_placed = true ∧
    boardVinGrounded.validate_gate_base_connections = true ∧
    specValidC5 boardVinGrounded ∧
    boardVinGrounded.is_complete_and_valid = false := by
  refine ⟨reachable_of_replay (Reachable.base 8 (by norm_num)) vinGroundedActs
    (by decide) (by decide),
    by decide, by decide, by decide,
    ⟨by decide, by decide, by decide, by decide, by decide⟩, by decide⟩

end Topology
namespace Topology
open Breadboard

theorem catalogGet_eq_some_iff {t : String} {info : ComponentInfo} :
    catalogGet t = some info ↔ (t, info) ∈ COMPONENT_CATALOG := by
  constructor
  · intro h
    unfold catalogGet at h
    cases hf : COMPONENT_CATALOG.find? (fun e => e.1 == t) with
    | none => rw [hf] at h; simp at h
    | some e =>
      rw [hf] at h
      simp only [Option.map] at h
      injection h with h
      have hp := List.find?_some hf
      have hmem := List.mem_of_find?_eq_some hf
      have : e.1 = t := by simpa using hp
      have : e = (t, info) := by
        cases e; simp_all
      exact this ▸ hmem
  · intro h
    fin_cases h <;> rfl

theorem catalog_one_pin {t : String} {info : ComponentInfo}
    (h : catalogGet t = some info) (h1 : info.pin_count = 1) :
    info.can_place_multiple = false ∧ (t = "vin" ∨ t = "vout") := by
  have hm := catalogGet_eq_some_iff.1 h
  fin_cases hm <;> simp_all

theorem catalog_multi_not_io {t : String} {info : ComponentInfo}
    (h : catalogGet t = some info) (h2 : info.pin_count ≠ 1) (hw : t ≠ "wire") :
    t ∉ (["vin", "vout", "wire"] : List String) := by
  have hm := catalogGet_eq_some_iff.1 h
  fin_cases hm <;> simp_all

theorem catalog_pc_pos {t : String} {info : ComponentInfo}
    (h : catalogGet t = some info) : 1 ≤ info.pin_count := by
  have hm := catalogGet_eq_some_iff.1 h
  fin_cases hm <;> simp_all

theorem mem_componentActions {b : Breadboard} {kind : String} {r : Nat} :
    Action.place kind r ∈ b.componentActions ↔
      ∃ ci ∈ COMPONENT_CATALOG, ci.1 = kind ∧ ci.1 ≠ "wire" ∧
        r ∈ List.range' b.VIN_ROW (b.VOUT_ROW - (ci.2.pin_count - 1) + 1 - b.VIN_ROW) ∧
        b.can_place_component ci.1 r = true := by
  unfold Breadboard.componentActions
  rw [List.mem_flatMap]
  constructor
  · rintro ⟨ci, hci, hmem⟩
    by_cases hw : ci.1 = "wire"
    · rw [if_pos hw] at hmem; cases hmem
    · rw [if_neg hw] at hmem
      obtain ⟨q, hq, heq⟩ := List.mem_map.1 hmem
      obtain ⟨hqr, hqcan⟩ := List.mem_filter.1 hq
      obtain ⟨hk, hr⟩ : ci.1 = kind ∧ q = r := by
        cases heq; exact ⟨rfl, rfl⟩
      subst hr
      exact ⟨ci, hci, hk, hw, hqr, hqcan⟩
  · rintro ⟨ci, hci, hk, hw, hr, hcan⟩
    refine ⟨ci, hci, ?_⟩
    rw [if_neg hw]
    subst hk
    exact List.mem_map.2 ⟨r, List.mem_filter.2 ⟨hr, hcan⟩, rfl⟩

theorem wireActionsInner_shape {b : Breadboard} {r1 : Nat} :
    ∀ (l : List Nat) (seen : List (Nat × Nat)) (a : Action),
      a ∈ (b.wireActionsInner r1 l seen).1 →
      ∃ x y, a = Action.wire x y ∧ b.can_place_wire x y = true := by
  intro l
  induction l with
  | nil => intro seen a ha; simp [Breadboard.wireActionsInner] at ha
  | cons r2 rest ih =>
    intro seen a ha
    rw [Breadboard.wireActionsInner] at ha
    by_cases h1 : (pairKey r1 r2 ∈ seen)
    · rw [if_pos h1] at ha; exact ih _ _ ha
    · rw [if_neg h1] at ha
      by_cases h2 : b.can_place_wire r1 r2
      · rw [if_pos h2] at ha
        rcases List.mem_cons.1 ha with rfl | ha2
        · exact ⟨r1, r2, rfl, h2⟩
        · exact ih _ _ ha2
      · simp only [h2, Bool.false_eq_true, if_false] at ha
        exact ih _ _ ha

theorem wireActionsOuter_shape {b : Breadboard} :
    ∀ (l : List Nat) (seen : List (Nat × Nat)) (a : Action),
      a ∈ b.wireActionsOuter l seen →
      ∃ x y, a = Action.wire x y ∧ b.can_place_wire x y = true := by
  intro l
  induction l with
  | nil => intro seen a ha; simp [Breadboard.wireActionsOuter] at ha
  | cons r1 rest ih =>
    intro seen a ha
    rw [Breadboard.wireActionsOuter] at ha
    rcases List.mem_append.1 ha with h | h
    · exact wireActionsInner_shape _ _ _ h
    · exact ih _ _ h

theorem wireActions_shape {b : Breadboard} {a : Action} (h : a ∈ b.wireActions) :
    ∃ x y, a = Action.wire x y ∧ b.can_place_wire x y = true :=
  wireActionsOuter_shape _ _ _ h

theorem stopActions_shape {b : Breadboard} {a : Action} (h : a ∈ b.stopActions) :
    a = Action.stop := by
  unfold Breadboard.stopActions at h
  by_cases hc : (b.is_complete_and_valid && decide (1 ≤ (activeComps b).length)) = true
  · rw [if_pos hc] at h; simpa using h
  · rw [if_neg hc] at h; cases h

theorem mem_legal_place {b : Breadboard} {kind : String} {r : Nat} :
    Action.place kind r ∈ b.legal_actions ↔ Action.place kind r ∈ b.componentActions := by
  simp only [Breadboard.legal_actions, List.mem_append]
  constructor
  · rintro ((h | h) | h)
    · exact h
    · obtain ⟨x, y, hxy, -⟩ := wireActions_shape h; cases hxy
    · cases stopActions_shape h
  · intro h; exact Or.inl (Or.inl h)
end Topology
namespace Topology
open Breadboard

theorem can_place_component_iff {b : Breadboard} {kind : String} {info : ComponentInfo}
    {r : Nat} (hget : catalogGet kind = some info)
    (hv : b.vin_placed = true) (ho : b.vout_placed = true) :
    b.can_place_component kind r = true ↔
      (kind ≠ "wire" ∧
       (info.can_place_multiple = false → b.placedFlag kind = false) ∧
       b.WORK_START_ROW ≤ r ∧ r + info.pin_count - 1 ≤ b.WORK_END_ROW ∧
       (∃ q ∈ List.range' r info.pin_count, b.is_row_active q = true) ∧
       2 ≤ (dedupNats ((List.range' r info.pin_count).map b.find)).length ∧
       (∀ c ∈ b.placed_components, c.type = kind →
         netSignature b c.pins ≠ netSignature b (List.range' r info.pin_count))) := by
  unfold Breadboard.can_place_component
  rw [hget]
  dsimp only
  by_cases hw : kind = "wire"
  · rw [if_pos hw]
    simp [hw]
  · rw [if_neg hw]
    by_cases hm : ¬ (info.can_place_multiple = true) ∧ b.placedFlag kind = true
    · rw [if_pos hm]
      simp only [Bool.false_eq_true, false_iff]
      rintro ⟨-, hmul, -⟩
      rw [hmul (by simpa using hm.1)] at hm
      exact absurd hm.2 (by simp)
    · rw [if_neg hm]
      have hmul : info.can_place_multiple = false → b.placedFlag kind = false := by
        intro hc
        by_contra hf
        exact hm ⟨by simp [hc], by simpa using hf⟩
      by_cases hwork : b.WORK_START_ROW ≤ r ∧ r + info.pin_count - 1 ≤ b.WORK_END_ROW
      · rw [if_neg (not_not_intro hwork)]
        by_cases h1 : info.pin_count = 1
        · obtain ⟨hcpm, hio⟩ := catalog_one_pin hget h1
          have hflag : b.placedFlag kind = true := by
            rcases hio with rfl | rfl <;> simp [Breadboard.placedFlag, hv, ho]
          exact absurd ⟨by simp [hcpm], hflag⟩ hm
        · rw [if_neg h1]
          have hio := catalog_multi_not_io hget h1 hw
          by_cases h2 : (List.range' r info.pin_count).any (fun q => b.is_row_active q) = true
          · rw [if_neg (not_not_intro h2)]
            by_cases h3 : (dedupNats ((List.range' r info.pin_count).map b.find)).length < 2
            · rw [if_pos h3]
              simp only [Bool.false_eq_true, false_iff]
              rintro ⟨-, -, -, -, -, h3', -⟩
              omega
            · rw [if_neg h3]
              by_cases h4 : (b.placed_components.any (fun c =>
                  c.type == kind &&
                  ! decide (c.type ∈ (["vin", "vout", "wire"] : List String)) &&
                  netSignature b c.pins == netSignature b (List.range' r info.pin_count))) = true
              · rw [if_pos h4]
                simp only [Bool.false_eq_true, false_iff]
                rintro ⟨-, -, -, -, -, -, hdup⟩
                obtain ⟨c, hc, hcb⟩ := List.any_eq_true.1 h4
                simp only [Bool.and_eq_true, beq_iff_eq, Bool.not_eq_eq_eq_not,
                  Bool.not_true, decide_eq_false_iff_not] at hcb
                exact hdup c hc hcb.1.1 (by simpa using hcb.2)
              · rw [if_neg h4]
                simp only [true_iff]
                refine ⟨hw, hmul, hwork.1, hwork.2, List.any_eq_true.1 h2, by omega, ?_⟩
                intro c hc hck hsig
                apply h4
                refine List.any_eq_true.2 ⟨c, hc, ?_⟩
                simp only [Bool.and_eq_true, beq_iff_eq, Bool.not_eq_eq_eq_not,
                  Bool.not_true, decide_eq_false_iff_not]
                exact ⟨⟨hck, hck ▸ hio⟩, by simpa using hsig⟩
          · rw [if_pos (by simpa using h2)]
            simp only [Bool.false_eq_true, false_iff]
            rintro ⟨-, -, -, -, hex, -⟩
            exact h2 (List.any_eq_true.2 hex)
      · rw [if_pos hwork]
        simp only [Bool.false_eq_true, false_iff]
        rintro ⟨-, -, ha, hb, -⟩
        exact hwork ⟨ha, hb⟩
end Topology
namespace Topology
open Breadboard
theorem claim2_amended (b : Breadboard) (kind : String) (r : Nat)
    (hv : b.vin_placed = true) (ho : b.vout_placed = true) :
    Action.place kind r ∈ b.legal_actions ↔ specComponentOfferAmended b kind r := by
  rw [mem_legal_place, mem_componentActions]
  constructor
  · rintro ⟨ci, hci, rfl, hw, hr, hcan⟩
    have hget : catalogGet ci.1 = some ci.2 := catalogGet_eq_some_iff.2 (by cases ci; exact hci)
    have h := (can_place_component_iff hget hv ho).1 hcan
    unfold specComponentOfferAmended
    rw [hget]
    exact ⟨h.1, h.2.1, h.2.2.1, h.2.2.2.1, h.2.2.2.2.1, h.2.2.2.2.2.1, h.2.2.2.2.2.2⟩
  · intro h
    unfold specComponentOfferAmended at h
    cases hget : catalogGet kind with
    | none => rw [hget] at h; exact h.elim
    | some info =>
      rw [hget] at h
      obtain ⟨hw, hmul, hws, hwe, hact, hded, hdup⟩ := h
      have hci := catalogGet_eq_some_iff.1 hget
      have hpc := catalog_pc_pos hget
      refine ⟨(kind, info), hci, rfl, hw, ?_,
        (can_place_component_iff hget hv ho).2 ⟨hw, hmul, hws, hwe, hact, hded, hdup⟩⟩
      rw [List.mem_range'_1]
      simp only [Breadboard.VIN_ROW, Breadboard.VOUT_ROW] at *
      simp only [Breadboard.WORK_START_ROW, Breadboard.WORK_END_ROW] at hws hwe
      omega

theorem claim2_amended_witness :
    boardOccupied.vin_placed = true ∧ boardOccupied.vout_placed = true ∧
    (Action.place "capacitor" 2 ∈ boardOccupied.legal_actions ↔
      specComponentOfferAmended boardOccupied "capacitor" 2) :=
  ⟨by decide, by decide, claim2_amended boardOccupied "capacitor" 2 (by decide) (by decide)⟩
end Topology
namespace Topology
open Breadboard

theorem summLoop_none_iff (m : List (Nat × String)) (comps : List Component) (st : SummLoopSt) :
    summLoop m comps st = none ↔
      ∃ c ∈ comps, c.type ∉ (["vin", "vout", "wire"] : List String) ∧
        (compNets m c).length < 2 := by
  induction comps generalizing st with
  | nil => simp [summLoop]
  | cons c rest ih =>
    rw [summLoop]
    by_cases hio : c.type ∈ (["vin", "vout", "wire"] : List String)
    · rw [if_pos hio, ih]
      constructor
      · rintro ⟨d, hd, h⟩; exact ⟨d, List.mem_cons_of_mem _ hd, h⟩
      · rintro ⟨d, hd, h⟩
        rcases List.mem_cons.1 hd with rfl | hd2
        · exact absurd hio h.1
        · exact ⟨d, hd2, h⟩
    · rw [if_neg hio]
      by_cases hd : (compNets m c).length < 2
      · rw [if_pos hd]
        constructor
        · intro _; exact ⟨c, List.mem_cons_self c rest, hio, hd⟩
        · intro _; rfl
      · rw [if_neg hd, ih]
        constructor
        · rintro ⟨d, hdm, h⟩; exact ⟨d, List.mem_cons_of_mem _ hdm, h⟩
        · rintro ⟨d, hdm, h⟩
          rcases List.mem_cons.1 hdm with rfl | hd2
          · exact absurd h.2 hd
          · exact ⟨d, hd2, h⟩

theorem summLoop_some (m : List (Nat × String)) (comps : List Component)
    (st st' : SummLoopSt) (h : summLoop m comps st = some st') :
    st'.edges = st.edges ++
      (comps.filter (fun c => ! decide (c.type ∈ (["vin", "vout", "wire"] : List String)))).flatMap
        (fun c => netPairs (compNets m c)) ∧
    st'.component_count = st.component_count +
      (comps.filter (fun c => ! decide (c.type ∈ (["vin", "vout", "wire"] : List String)))).length ∧
    st'.touches_vdd = (st.touches_vdd ||
      (comps.filter (fun c => ! decide (c.type ∈ (["vin", "vout", "wire"] : List String)))).any
        (fun c => decide ("VDD" ∈ compNets m c))) ∧
    st'.touches_vss = (st.touches_vss ||
      (comps.filter (fun c => ! decide (c.type ∈ (["vin", "vout", "wire"] : List String)))).any
        (fun c => decide ("0" ∈ compNets m c))) ∧
    st'.has_active_components = (st.has_active_components ||
      ! (comps.filter (fun c => ! decide (c.type ∈ (["vin", "vout", "wire"] : List String)))).isEmpty) ∧
    (∀ x, x ∈ st'.component_nets ↔ x ∈ st.component_nets ∨
      ∃ c ∈ comps.filter (fun c => ! decide (c.type ∈ (["vin", "vout", "wire"] : List String))),
        x ∈ compNets m c) := by
  induction comps generalizing st with
  | nil =>
    simp only [summLoop, Option.some.injEq] at h
    subst h
    simp
  | cons c rest ih =>
    rw [summLoop] at h
    by_cases hio : c.type ∈ (["vin", "vout", "wire"] : List String)
    · rw [if_pos hio] at h
      have hf : (c :: rest).filter
          (fun c => ! decide (c.type ∈ (["vin", "vout", "wire"] : List String))) =
          rest.filter (fun c => ! decide (c.type ∈ (["vin", "vout", "wire"] : List String))) := by
        exact List.filter_cons_of_neg (by simp [hio])
      rw [hf]
      exact ih st h
    · rw [if_neg hio] at h
      by_cases hd : (compNets m c).length < 2
      · rw [if_pos hd] at h; cases h
      · rw [if_neg hd] at h
        have hf : (c :: rest).filter
            (fun c => ! decide (c.type ∈ (["vin", "vout", "wire"] : List String))) =
            c :: rest.filter (fun c => ! decide (c.type ∈ (["vin", "vout", "wire"] : List String))) := by
          exact List.filter_cons_of_pos (by simpa using hio)
        rw [hf]
        obtain ⟨h1, h2, h3, h4, h5, h6⟩ := ih _ h
        refine ⟨by simp [h1], by simp [h2]; omega, ?_, ?_, by simp [h5], ?_⟩
        · rw [h3]; simp only [List.any_cons]
          cases st.touches_vdd <;> simp [decide_eq_true_eq]
        · rw [h4]; simp only [List.any_cons]
          cases st.touches_vss <;> simp [decide_eq_true_eq]
        · intro x
          rw [h6 x]
          constructor
          · rintro (hx | ⟨d, hdm, hxd⟩)
            · rcases List.mem_append.1 hx with hx2 | hx2
              · exact Or.inl hx2
              · exact Or.inr ⟨c, List.mem_cons_self c _, (List.mem_filter.1 hx2).1⟩
            · exact Or.inr ⟨d, List.mem_cons_of_mem c hdm, hxd⟩
          · rintro (hx | ⟨d, hdm, hxd⟩)
            · exact Or.inl (List.mem_append_left _ hx)
            · rcases List.mem_cons.1 hdm with rfl | hd2
              · by_cases hxs : x ∈ st.component_nets
                · exact Or.inl (List.mem_append_left _ hxs)
                · exact Or.inl (List.mem_append_right _
                    (List.mem_filter.2 ⟨hxd, by simpa using hxs⟩))
              · exact Or.inr ⟨d, hd2, hxd⟩
end Topology
namespace Topology
open Breadboard

theorem activeComps_eq_filter (b : Breadboard) :
    b.placed_components.filter
      (fun c => ! decide (c.type ∈ (["vin", "vout", "wire"] : List String))) =
      activeComps b := by
  unfold activeComps
  apply List.filter_congr
  intro c _
  by_cases h1 : c.type = "vin" <;> by_cases h2 : c.type = "vout" <;>
    by_cases h3 : c.type = "wire" <;> simp [h1, h2, h3]

theorem mem_activeComps {b : Breadboard} {c : Component} :
    c ∈ activeComps b ↔ c ∈ b.placed_components ∧
      c.type ∉ (["vin", "vout", "wire"] : List String) := by
  rw [← activeComps_eq_filter, List.mem_filter]
  simp

theorem connectivity_valid_iff (b : Breadboard)
    (hv : b.vin_placed = true) (ho : b.vout_placed = true)
    {vc oc : Component}
    (hvc : firstOfType b "vin" = some vc) (hoc : firstOfType b "vout" = some oc) :
    b.connectivitySummary.valid = true ↔ specValidC5Amended b := by
  have hin : specInputNet b (build_net_mapping b) =
      lookupNet (build_net_mapping b) (vc.pins.headD 0) := by
    simp [specInputNet, hvc]
  have hout : specOutputNet b (build_net_mapping b) =
      lookupNet (build_net_mapping b) (oc.pins.headD 0) := by
    simp [specOutputNet, hoc]
  unfold Breadboard.connectivitySummary specValidC5Amended
  rw [if_neg (by simp [hv, ho]), hvc, hoc]
  dsimp only
  rw [hin, hout]
  set m := build_net_mapping b with hm
  set vin_net := lookupNet m (vc.pins.headD 0) with hvn
  set vout_net := lookupNet m (oc.pins.headD 0) with hon
  by_cases h1 : vin_net = "0" ∨ vin_net = "VDD"
  · rw [if_pos h1]
    simp only [defaultSummary, Bool.false_eq_true, false_iff]
    rintro ⟨hne0, hneV, -⟩
    rcases h1 with h1 | h1 <;> [exact hne0 h1; exact hneV h1]
  · rw [if_neg h1]
    by_cases h2 : vout_net = "0" ∨ vout_net = "VDD"
    · rw [if_pos h2]
      simp only [defaultSummary, Bool.false_eq_true, false_iff]
      rintro ⟨-, -, hne0, hneV, -⟩
      rcases h2 with h2 | h2 <;> [exact hne0 h2; exact hneV h2]
    · rw [if_neg h2]
      by_cases h3 : vin_net = vout_net
      · rw [if_pos h3]
        simp only [defaultSummary, Bool.false_eq_true, false_iff]
        rintro ⟨-, -, -, -, hne, -⟩
        exact hne h3
      · rw [if_neg h3]
        push_neg at h1 h2
        cases hloop : summLoop m b.placed_components ⟨[], [], false, false, false, 0⟩ with
        | none =>
          dsimp only
          simp only [defaultSummary, Bool.false_eq_true, false_iff]
          obtain ⟨c, hcm, hcio, hclen⟩ := (summLoop_none_iff m _ _).1 hloop
          rintro ⟨-, -, -, -, -, hnodeg, -⟩
          exact absurd (hnodeg c (mem_activeComps.2 ⟨hcm, hcio⟩)) (by omega)
        | some st =>
          dsimp only
          obtain ⟨he, hcnt, hvd, hvs, hha, hnets⟩ := summLoop_some m _ _ _ hloop
          rw [activeComps_eq_filter] at he hcnt hvd hvs hha hnets
          simp only [List.nil_append, Nat.zero_add, Bool.false_or] at he hcnt hvd hvs hha hnets
          by_cases h4 : st.has_active_components = true
          · rw [if_neg (by simp [h4])]
            have hnodeg : ∀ c ∈ activeComps b, 2 ≤ (compNets m c).length := by
              intro c hc
              by_contra hlen
              have : summLoop m b.placed_components ⟨[], [], false, false, false, 0⟩ = none :=
                (summLoop_none_iff m _ _).2
                  ⟨c, (mem_activeComps.1 hc).1, (mem_activeComps.1 hc).2, by omega⟩
              rw [hloop] at this; cases this
            simp only [Bool.and_eq_true, decide_eq_true_eq, List.all_eq_true]
            constructor
            · rintro ⟨⟨⟨⟨⟨hc2, hreach⟩, hall⟩, -⟩, htv⟩, hts⟩
              rw [hcnt] at hc2
              rw [he] at hreach hall
              refine ⟨h1.1, h1.2, h2.1, h2.2, h3, hnodeg, hc2, hreach, ?_, ?_, ?_⟩
              · intro c hc x hx
                have hxm : x ∈ st.component_nets := (hnets x).2 (Or.inr ⟨c, hc, hx⟩)
                simpa using hall x hxm
              · obtain ⟨c, hc, hcd⟩ := List.any_eq_true.1 (hvd ▸ htv)
                exact ⟨c, hc, by simpa using hcd⟩
              · obtain ⟨c, hc, hcd⟩ := List.any_eq_true.1 (hvs ▸ hts)
                exact ⟨c, hc, by simpa using hcd⟩
            · rintro ⟨-, -, -, -, -, -, hc2, hreach, hall, hvdd, hvss⟩
              refine ⟨⟨⟨⟨⟨by rw [hcnt]; exact hc2, by rw [he]; exact hreach⟩, ?_⟩, h4⟩, ?_⟩, ?_⟩
              · intro x hx
                rcases (hnets x).1 hx with hx2 | ⟨c, hc, hxc⟩
                · cases hx2
                · rw [he]
                  simpa using hall c hc x hxc
              · rw [hvd]
                obtain ⟨c, hc, hcd⟩ := hvdd
                exact List.any_eq_true.2 ⟨c, hc, by simpa using hcd⟩
              · rw [hvs]
                obtain ⟨c, hc, hcd⟩ := hvss
                exact List.any_eq_true.2 ⟨c, hc, by simpa using hcd⟩
          · rw [if_pos (by simpa using h4)]
            simp only [defaultSummary, Bool.false_eq_true, false_iff]
            rintro ⟨-, -, -, -, -, -, hc2, -⟩
            have hfl : (activeComps b).isEmpty = true := by
              rw [hha] at h4
              simpa using h4
            rw [List.isEmpty_iff] at hfl
            rw [hfl] at hc2
            simp at hc2
end Topology
namespace Topology
theorem claim5_amended (b : Breadboard)
    (hvc : b.vin_placed = true → (firstOfType b "vin").isSome = true)
    (hoc : b.vout_placed = true → (firstOfType b "vout").isSome = true) :
    b.is_complete_and_valid = true ↔
      (b.vin_placed = true ∧ b.vout_placed = true ∧
       b.validate_gate_base_connections = true ∧ specValidC5Amended b) := by
  unfold Breadboard.is_complete_and_valid
  simp only [Bool.and_eq_true]
  constructor
  · rintro ⟨⟨⟨hv, ho⟩, hvalid⟩, hgate⟩
    obtain ⟨vc, hvc'⟩ := Option.isSome_iff_exists.1 (hvc hv)
    obtain ⟨oc, hoc'⟩ := Option.isSome_iff_exists.1 (hoc ho)
    exact ⟨hv, ho, hgate, (connectivity_valid_iff b hv ho hvc' hoc').1 hvalid⟩
  · rintro ⟨hv, ho, hgate, hspec⟩
    obtain ⟨vc, hvc'⟩ := Option.isSome_iff_exists.1 (hvc hv)
    obtain ⟨oc, hoc'⟩ := Option.isSome_iff_exists.1 (hoc ho)
    exact ⟨⟨⟨hv, ho⟩, (connectivity_valid_iff b hv ho hvc' hoc').2 hspec⟩, hgate⟩

theorem claim5_amended_witness :
    boardComplete.is_complete_and_valid = true ∧
      (boardComplete.vin_placed = true ∧ boardComplete.vout_placed = true ∧
       boardComplete.validate_gate_base_connections = true ∧
       specValidC5Amended boardComplete) :=
  ⟨by decide,
    (claim5_amended boardComplete (fun _ => by decide) (fun _ => by decide)).1 (by decide)⟩
end Topology
namespace Topology
open Breadboard

theorem ufFind_zero (p : List Nat) (r : Nat) : ufFind p 0 r = r := rfl

theorem ufFind_succ (p : List Nat) (f r : Nat) :
    ufFind p (f + 1) r = ufFind p f (parentOf p r) := by
  unfold ufFind
  rw [Function.iterate_succ_apply]

theorem ufFind_stable {p : List Nat} {x : Nat} (h : IsRoot p x) (f : Nat) :
    ufFind p f x = x := Function.iterate_fixed h f

theorem ufFind_mono {p : List Nat} {f : Nat} {i : Nat}
    (h : IsRoot p (ufFind p f i)) {g : Nat} (hg : f ≤ g) :
    ufFind p g i = ufFind p f i := by
  obtain ⟨d, rfl⟩ := Nat.exists_eq_add_of_le hg
  unfold ufFind at *
  rw [Nat.add_comm, Function.iterate_add_apply]
  exact Function.iterate_fixed h d

theorem ufFind_lt {p : List Nat} {n : Nat}
    (hbound : ∀ i, i < n → parentOf p i < n) {i : Nat} (hi : i < n) (f : Nat) :
    ufFind p f i < n := by
  induction f generalizing i with
  | zero => exact hi
  | succ f ih => rw [ufFind_succ]; exact ih (hbound i hi)

theorem numRoots_le (p : List Nat) : numRoots p ≤ p.length := by
  unfold numRoots
  calc ((Finset.range p.length).filter (fun i => parentOf p i = i)).card
      ≤ (Finset.range p.length).card := Finset.card_filter_le _ _
    _ = p.length := Finset.card_range _

theorem numRoots_pos {p : List Nat} {x : Nat} (hx : x < p.length) (h : IsRoot p x) :
    1 ≤ numRoots p := by
  unfold numRoots
  refine Finset.card_pos.2 ⟨x, ?_⟩
  exact Finset.mem_filter.2 ⟨Finset.mem_range.2 hx, show parentOf p x = x from h⟩

theorem parentOf_set_ne {p : List Nat} {r2 r1 x : Nat} (h : x ≠ r2) :
    parentOf (p.set r2 r1) x = parentOf p x := by
  unfold parentOf
  simp [List.getD_eq_getElem?_getD, List.getElem?_set_ne (Ne.symm h)]

theorem parentOf_set_self {p : List Nat} {r2 r1 : Nat} (h : r2 < p.length) :
    parentOf (p.set r2 r1) r2 = r1 := by
  unfold parentOf
  simp [List.getD_eq_getElem?_getD, List.getElem?_set_self, h]

theorem isRoot_set {p : List Nat} {r2 r1 x : Nat} (h : IsRoot p x) (hx : x ≠ r2) :
    IsRoot (p.set r2 r1) x := by
  unfold IsRoot
  rw [parentOf_set_ne hx]
  exact h

theorem ufFind_set {p : List Nat} {r1 r2 : Nat} (h1 : IsRoot p r1) (h2 : IsRoot p r2)
    (hne : r1 ≠ r2) (hr2 : r2 < p.length) :
    ∀ f i, IsRoot p (ufFind p f i) →
      ufFind (p.set r2 r1) (f + 1) i =
        if ufFind p f i = r2 then r1 else ufFind p f i := by
  intro f
  induction f with
  | zero =>
    intro i hroot
    rw [ufFind_zero] at hroot ⊢
    rw [show (0 : Nat) + 1 = 1 from rfl]
    by_cases hir : i = r2
    · subst hir
      rw [if_pos rfl, ufFind_succ, parentOf_set_self hr2, ufFind_zero]
    · rw [if_neg hir, ufFind_succ, parentOf_set_ne hir, hroot, ufFind_zero]
  | succ f ih =>
    intro i hroot
    by_cases hpi : IsRoot p i
    · have hstable : ufFind p (f + 1) i = i := ufFind_stable hpi _
      rw [hstable]
      by_cases hir : i = r2
      · subst hir
        rw [if_pos rfl, ufFind_succ, parentOf_set_self hr2]
        exact ufFind_stable (isRoot_set h1 hne) _
      · rw [if_neg hir, ufFind_succ, parentOf_set_ne hir, hpi]
        exact ufFind_stable (isRoot_set hpi hir) _
    · have hir : i ≠ r2 := fun h => hpi (h ▸ h2)
      rw [ufFind_succ] at hroot
      have := ih (parentOf p i) hroot
      rw [ufFind_succ, parentOf_set_ne hir, this, ufFind_succ p f i]

theorem numRoots_set {p : List Nat} {r1 r2 : Nat} (h2 : IsRoot p r2)
    (hne : r1 ≠ r2) (hr2 : r2 < p.length) :
    numRoots (p.set r2 r1) = numRoots p - 1 := by
  unfold numRoots
  rw [List.length_set]
  have hset : (Finset.range p.length).filter (fun i => parentOf (p.set r2 r1) i = i) =
      ((Finset.range p.length).filter (fun i => parentOf p i = i)).erase r2 := by
    ext i
    simp only [Finset.mem_filter, Finset.mem_erase, Finset.mem_range]
    by_cases hir : i = r2
    · subst hir
      simp only [parentOf_set_self hr2]
      constructor
      · rintro ⟨-, h⟩; exact absurd h hne
      · rintro ⟨h, -⟩; exact absurd rfl h
    · rw [parentOf_set_ne hir]
      constructor
      · rintro ⟨ha, hb⟩; exact ⟨hir, ha, hb⟩
      · rintro ⟨-, ha, hb⟩; exact ⟨ha, hb⟩
  have hmem : r2 ∈ (Finset.range p.length).filter (fun i => parentOf p i = i) := by
    refine Finset.mem_filter.2 ⟨Finset.mem_range.2 hr2, ?_⟩
    exact h2
  rw [hset, Finset.card_erase_of_mem hmem]
end Topology
namespace Topology
open Breadboard

theorem set_preserves (n : Nat) (p : List Nat) (hlen : p.length = n)
    (hbound : ∀ i, i < n → parentOf p i < n)
    (hsettle : ∀ i, i < n → IsRoot p (ufFind p (n - numRoots p) i))
    {cr pr : Nat} (hc : IsRoot p cr) (hp : IsRoot p pr) (hne : pr ≠ cr)
    (hcn : cr < n) (hpn : pr < n) :
    (p.set cr pr).length = n ∧
    (∀ i, i < n → parentOf (p.set cr pr) i < n) ∧
    (∀ i, i < n →
      IsRoot (p.set cr pr) (ufFind (p.set cr pr) (n - numRoots (p.set cr pr)) i)) ∧
    (∀ i, i < n →
      ufFind (p.set cr pr) n i = if ufFind p n i = cr then pr else ufFind p n i) := by
  have hcl : cr < p.length := hlen ▸ hcn
  have hR1 : 1 ≤ numRoots p := numRoots_pos hcl hc
  have hRle : numRoots p ≤ n := hlen ▸ numRoots_le p
  have hNR : numRoots (p.set cr pr) = numRoots p - 1 := numRoots_set hc hne hcl
  have hkey : ∀ i, i < n →
      ufFind (p.set cr pr) (n - numRoots p + 1) i =
        if ufFind p (n - numRoots p) i = cr then pr else ufFind p (n - numRoots p) i := by
    intro i hi
    exact ufFind_set hp hc hne hcl (n - numRoots p) i (hsettle i hi)
  have hroot' : ∀ i, i < n →
      IsRoot (p.set cr pr) (ufFind (p.set cr pr) (n - numRoots p + 1) i) := by
    intro i hi
    rw [hkey i hi]
    by_cases hcase : ufFind p (n - numRoots p) i = cr
    · rw [if_pos hcase]
      exact isRoot_set hp hne
    · rw [if_neg hcase]
      exact isRoot_set (hsettle i hi) hcase
  have hfuel : n - numRoots (p.set cr pr) = n - numRoots p + 1 := by
    rw [hNR]; omega
  refine ⟨by rw [List.length_set, hlen], ?_, ?_, ?_⟩
  · intro i hi
    by_cases hir : i = cr
    · subst hir
      rw [parentOf_set_self hcl]
      exact hpn
    · rw [parentOf_set_ne hir]
      exact hbound i hi
  · intro i hi
    rw [hfuel]
    exact hroot' i hi
  · intro i hi
    have hfind : ufFind p n i = ufFind p (n - numRoots p) i :=
      ufFind_mono (hsettle i hi) (by omega)
    rw [hfind]
    rw [← hkey i hi]
    exact ufFind_mono (hroot' i hi) (by omega)
end Topology
namespace Topology
open Breadboard

theorem pairKey_symm (a b : Nat) : pairKey a b = pairKey b a := by
  unfold Breadboard.pairKey
  rw [Nat.min_comm, Nat.max_comm]

theorem pairKey_eq_iff {a b c d : Nat} :
    pairKey a b = pairKey c d ↔ (a = c ∧ b = d) ∨ (a = d ∧ b = c) := by
  unfold Breadboard.pairKey
  simp only [Prod.mk.injEq]
  omega

theorem wireStep_symm {b : Breadboard} {x y : Nat} (h : wireStep b x y) :
    wireStep b y x := by
  unfold wireStep at *
  rwa [pairKey_symm]

theorem wireReach_symm {b : Breadboard} {x y : Nat} (h : wireReach b x y) :
    wireReach b y x := by
  induction h with
  | refl => exact Relation.ReflTransGen.refl
  | tail hxz hstep ih => exact Relation.ReflTransGen.head (wireStep_symm hstep) ih

theorem wireReach_extend {b b' : Breadboard} {r1 r2 : Nat}
    (hw : b'.placed_wires = b.placed_wires ++ [pairKey r1 r2]) (x y : Nat) :
    wireReach b' x y ↔ wireReach b x y ∨
      (wireReach b x r1 ∧ wireReach b r2 y) ∨
      (wireReach b x r2 ∧ wireReach b r1 y) := by
  constructor
  · intro h
    induction h with
    | refl => exact Or.inl Relation.ReflTransGen.refl
    | tail hxz hstep ih =>
      rename_i z w
      have hstep' : wireStep b z w ∨ (z = r1 ∧ w = r2) ∨ (z = r2 ∧ w = r1) := by
        unfold wireStep at hstep
        rw [hw, List.mem_append] at hstep
        rcases hstep with h | h
        · exact Or.inl h
        · simp only [List.mem_singleton] at h
          rcases pairKey_eq_iff.1 h with ⟨ha, hb⟩ | ⟨ha, hb⟩
          · exact Or.inr (Or.inl ⟨ha, hb⟩)
          · exact Or.inr (Or.inr ⟨ha, hb⟩)
      rcases hstep' with hs | ⟨rfl, rfl⟩ | ⟨rfl, rfl⟩
      · rcases ih with h | ⟨h1, h2⟩ | ⟨h1, h2⟩
        · exact Or.inl (h.tail hs)
        · exact Or.inr (Or.inl ⟨h1, h2.tail hs⟩)
        · exact Or.inr (Or.inr ⟨h1, h2.tail hs⟩)
      · rcases ih with h | ⟨h1, h2⟩ | ⟨h1, h2⟩
        · exact Or.inr (Or.inl ⟨h, Relation.ReflTransGen.refl⟩)
        · exact Or.inr (Or.inl ⟨h1, Relation.ReflTransGen.refl⟩)
        · exact Or.inl h1
      · rcases ih with h | ⟨h1, h2⟩ | ⟨h1, h2⟩
        · exact Or.inr (Or.inr ⟨h, Relation.ReflTransGen.refl⟩)
        · exact Or.inl h1
        · exact Or.inr (Or.inr ⟨h1, Relation.ReflTransGen.refl⟩)
  · intro h
    have hmono : ∀ u v, wireReach b u v → wireReach b' u v := by
      intro u v huv
      induction huv with
      | refl => exact Relation.ReflTransGen.refl
      | tail hxz hstep ih =>
        refine ih.tail ?_
        unfold wireStep at *
        rw [hw, List.mem_append]
        exact Or.inl hstep
    have hnew : wireReach b' r1 r2 := Relation.ReflTransGen.single (by
      unfold wireStep
      rw [hw, List.mem_append]
      exact Or.inr (by simp))
    have hnew2 : wireReach b' r2 r1 := wireReach_symm hnew
    rcases h with h | ⟨h1, h2⟩ | ⟨h1, h2⟩
    · exact hmono _ _ h
    · exact ((hmono _ _ h1).trans hnew).trans (hmono _ _ h2)
    · exact ((hmono _ _ h1).trans hnew2).trans (hmono _ _ h2)

theorem getD_set_ne' {α : Type} (l : List α) (i j : Nat) (a d : α) (h : j ≠ i) :
    (l.set i a).getD j d = l.getD j d := by
  simp [List.getD_eq_getElem?_getD, List.getElem?_set_ne (Ne.symm h)]

theorem getD_set_self' {α : Type} (l : List α) (i : Nat) (a d : α) (h : i < l.length) :
    (l.set i a).getD i d = a := by
  simp [List.getD_eq_getElem?_getD, List.getElem?_set_self, h]

theorem mem_foldl_insertNet (g : Nat → Nat) (l : List Nat) (s : List Nat) (x : Nat) :
    x ∈ l.foldl (fun acc r => insertNet acc (g r)) s ↔ x ∈ s ∨ ∃ r ∈ l, x = g r := by
  induction l generalizing s with
  | nil => simp
  | cons a rest ih =>
    simp only [List.foldl_cons]
    rw [ih]
    unfold Breadboard.insertNet
    by_cases h : g a ∈ s
    · rw [if_pos h]
      constructor
      · rintro (hx | ⟨r, hr, hxr⟩)
        · exact Or.inl hx
        · exact Or.inr ⟨r, List.mem_cons_of_mem a hr, hxr⟩
      · rintro (hx | ⟨r, hr, hxr⟩)
        · exact Or.inl hx
        · rcases List.mem_cons.1 hr with rfl | hr2
          · exact Or.inl (hxr ▸ h)
          · exact Or.inr ⟨r, hr2, hxr⟩
    · rw [if_neg h]
      constructor
      · rintro (hx | ⟨r, hr, hxr⟩)
        · rcases List.mem_append.1 hx with hx2 | hx2
          · exact Or.inl hx2
          · exact Or.inr ⟨a, List.mem_cons_self a rest, by simpa using hx2⟩
        · exact Or.inr ⟨r, List.mem_cons_of_mem a hr, hxr⟩
      · rintro (hx | ⟨r, hr, hxr⟩)
        · exact Or.inl (List.mem_append_left _ hx)
        · rcases List.mem_cons.1 hr with rfl | hr2
          · exact Or.inl (List.mem_append_right _ (by simp [hxr]))
          · exact Or.inr ⟨r, hr2, hxr⟩

theorem getD_foldl_set (g : Nat × Nat → PinRecord) (l : List (Nat × Nat)) :
    ∀ (rows : List (List PinRecord)), (∀ ir ∈ l, ir.2 < rows.length) → ∀ s,
    (l.foldl (fun rs ir => rs.set ir.2 (rs.getD ir.2 [] ++ [g ir])) rows).getD s [] =
      rows.getD s [] ++ (l.filter (fun ir => ir.2 == s)).map g := by
  induction l with
  | nil => intro rows hb s; simp
  | cons a rest ih =>
    intro rows hb s
    simp only [List.foldl_cons]
    rw [ih _ (by
      intro ir hir
      rw [List.length_set]
      exact hb ir (List.mem_cons_of_mem a hir))]
    by_cases hs : a.2 = s
    · rw [List.filter_cons_of_pos (by simp [hs])]
      rw [← hs, getD_set_self' _ _ _ _ (hb a (List.mem_cons_self a rest))]
      simp
    · rw [List.filter_cons_of_neg (by simp [hs])]
      rw [getD_set_ne' _ _ _ _ _ (fun h => hs h.symm)]
end Topology
namespace Topology
open Breadboard

theorem find_isRoot {b : Breadboard} (hb : Inv b) {i : Nat} (hi : i < b.ROWS) :
    IsRoot b.uf_parent (b.find i) := by
  have h := hb.hsettle i hi
  have heq : ufFind b.uf_parent b.ROWS i =
      ufFind b.uf_parent (b.ROWS - numRoots b.uf_parent) i :=
    ufFind_mono h (Nat.sub_le _ _)
  unfold Breadboard.find
  exact heq ▸ h

theorem find_lt {b : Breadboard} (hb : Inv b) {i : Nat} (hi : i < b.ROWS) :
    b.find i < b.ROWS := ufFind_lt hb.hbound hi _

theorem find_fixed {b : Breadboard} {x : Nat} (h : IsRoot b.uf_parent x) :
    b.find x = x := ufFind_stable h _

theorem specialRow_congr {b b' : Breadboard} (hrows : b'.ROWS = b.ROWS)
    (hp : b'.row_pin_index = b.row_pin_index) (s : Nat) :
    specialRow b' s ↔ specialRow b s := by
  unfold specialRow Breadboard.pins_in_row Breadboard.VSS_ROW Breadboard.VDD_ROW
    Breadboard.VIN_ROW Breadboard.VOUT_ROW
  rw [hrows, hp]

end Topology
namespace Topology
open Breadboard

theorem inv_after_set_wire {b b' : Breadboard} (hb : Inv b) {r1 r2 cr pr : Nat}
    (hr1 : r1 < b.ROWS) (hr2 : r2 < b.ROWS)
    (hrowseq : b'.ROWS = b.ROWS)
    (hpq : b'.row_pin_index = b.row_pin_index)
    (hwq : b'.placed_wires = b.placed_wires ++ [pairKey r1 r2])
    (huf : b'.uf_parent = b.uf_parent.set cr pr)
    (hcp : (cr = b.find r1 ∧ pr = b.find r2) ∨ (cr = b.find r2 ∧ pr = b.find r1))
    (hprb : pr ∈ b.active_nets)
    (hactchar : ∀ z, z ≠ cr → (z ∈ b'.active_nets ↔ z ∈ b.active_nets))
    (hnecp : pr ≠ cr) :
    Inv b' := by
  have hrows6 := hb.hrows
  have hlen := hb.hlen
  have hbound := hb.hbound
  have hsettle := hb.hsettle
  have hpinlen := hb.hpinlen
  have hwiresb := hb.hwires
  have hpinsb := hb.hpins
  have hclass := hb.hclass
  have hactive := hb.hactive
  have hcrRoot : IsRoot b.uf_parent cr := by
    rcases hcp with ⟨rfl, -⟩ | ⟨rfl, -⟩
    · exact find_isRoot hb hr1
    · exact find_isRoot hb hr2
  have hprRoot : IsRoot b.uf_parent pr := by
    rcases hcp with ⟨-, rfl⟩ | ⟨-, rfl⟩
    · exact find_isRoot hb hr2
    · exact find_isRoot hb hr1
  have hcrn : cr < b.ROWS := by
    rcases hcp with ⟨rfl, -⟩ | ⟨rfl, -⟩
    · exact find_lt hb hr1
    · exact find_lt hb hr2
  have hprn : pr < b.ROWS := by
    rcases hcp with ⟨-, rfl⟩ | ⟨-, rfl⟩
    · exact find_lt hb hr2
    · exact find_lt hb hr1
  obtain ⟨hlen', hbound', hsettle', hfind'⟩ :=
    set_preserves b.ROWS b.uf_parent hlen hbound hsettle hcrRoot hprRoot hnecp hcrn hprn
  have hfind : ∀ i, i < b.ROWS →
      b'.find i = if b.find i = cr then pr else b.find i := by
    intro i hi
    show ufFind b'.uf_parent b'.ROWS i = _
    rw [huf, hrowseq]
    exact hfind' i hi
  have hprmem : ∃ s, s < b.ROWS ∧ b'.find s = pr ∧ specialRow b' s := by
    have hfp : b.find pr = pr := find_fixed hprRoot
    obtain ⟨s, hs, hseq, hsp⟩ := (hactive pr hprn).1 (by rwa [hfp])
    refine ⟨s, hs, ?_, (specialRow_congr hrowseq hpq s).2 hsp⟩
    rw [hfind s hs, hseq, hfp, if_neg hnecp]
  have hfr1 : b.find r1 = cr ∨ b.find r1 = pr := by
    rcases hcp with ⟨h1, -⟩ | ⟨-, h2⟩
    · exact Or.inl h1.symm
    · exact Or.inr h2.symm
  have hfr2 : b.find r2 = cr ∨ b.find r2 = pr := by
    rcases hcp with ⟨-, h2⟩ | ⟨h1, -⟩
    · exact Or.inr h2.symm
    · exact Or.inl h1.symm
  have hmerged : ∀ x, x < b.ROWS → ((b.find x = cr ∨ b.find x = pr) ↔
      (wireReach b x r1 ∨ wireReach b x r2)) := by
    intro x hx
    rcases hcp with ⟨rfl, rfl⟩ | ⟨rfl, rfl⟩
    · rw [hclass x hx r1 hr1, hclass x hx r2 hr2]
    · rw [hclass x hx r1 hr1, hclass x hx r2 hr2]
      tauto
  refine ⟨by rw [hrowseq]; exact hrows6,
          by rw [huf, List.length_set, hrowseq]; exact hlen,
          ?_, ?_,
          by rw [hpq, hrowseq]; exact hpinlen,
          ?_, ?_, ?_, ?_⟩
  · intro i hi
    rw [hrowseq] at hi
    rw [huf, hrowseq]
    exact hbound' i hi
  · intro i hi
    rw [hrowseq] at hi
    rw [huf, hrowseq]
    exact hsettle' i hi
  · intro w hw
    rw [hwq] at hw
    rw [hrowseq]
    rcases List.mem_append.1 hw with hw2 | hw2
    · exact hwiresb w hw2
    · simp only [List.mem_singleton] at hw2
      subst hw2
      unfold Breadboard.pairKey
      refine ⟨?_, by simp only [Nat.max_lt]; exact ⟨hr1, hr2⟩⟩
      have hfneq : b.find r1 ≠ b.find r2 := by
        intro heq
        rcases hcp with ⟨h1, h2⟩ | ⟨h1, h2⟩
        · exact hnecp (h2.trans (heq.symm.trans h1.symm))
        · exact hnecp (h2.trans (heq.trans h1.symm))
      have : r1 ≠ r2 := fun h => hfneq (h ▸ rfl)
      omega
  · intro r hrp
    have hold : b.pins_in_row r ≠ [] := by
      unfold Breadboard.pins_in_row at hrp ⊢
      rwa [hpq] at hrp
    have h2 := hpinsb r hold
    unfold Breadboard.VIN_ROW Breadboard.VOUT_ROW at h2 ⊢
    rw [hrowseq]
    exact h2
  · intro i hi j hj
    rw [hrowseq] at hi hj
    rw [hfind i hi, hfind j hj, wireReach_extend hwq i j]
    by_cases hmi : b.find i = cr ∨ b.find i = pr
    · by_cases hmj : b.find j = cr ∨ b.find j = pr
      · have hLv : (if b.find i = cr then pr else b.find i) = pr := by
          rcases hmi with h | h <;> simp [h, hnecp]
        have hRv : (if b.find j = cr then pr else b.find j) = pr := by
          rcases hmj with h | h <;> simp [h, hnecp]
        rw [hLv, hRv]
        simp only [true_iff]
        rcases (hmerged i hi).1 hmi with hi1 | hi1 <;>
          rcases (hmerged j hj).1 hmj with hj1 | hj1
        · exact Or.inl (hi1.trans (wireReach_symm hj1))
        · exact Or.inr (Or.inl ⟨hi1, wireReach_symm hj1⟩)
        · exact Or.inr (Or.inr ⟨hi1, wireReach_symm hj1⟩)
        · exact Or.inl (hi1.trans (wireReach_symm hj1))
      · have hLv : (if b.find i = cr then pr else b.find i) = pr := by
          rcases hmi with h | h <;> simp [h, hnecp]
        have hRv : (if b.find j = cr then pr else b.find j) = b.find j := by
          rw [if_neg (fun h => hmj (Or.inl h))]
        rw [hLv, hRv]
        constructor
        · intro h
          exact absurd (Or.inr h.symm) hmj
        · rintro (h | ⟨h1, h2⟩ | ⟨h1, h2⟩)
          · exact absurd ((hclass i hi j hj).2 h ▸ hmi) hmj
          · exact absurd (by
              have := (hclass j hj r2 hr2).2 (wireReach_symm h2)
              rw [this]
              exact hfr2) hmj
          · exact absurd (by
              have := (hclass j hj r1 hr1).2 (wireReach_symm h2)
              rw [this]
              exact hfr1) hmj
    · by_cases hmj : b.find j = cr ∨ b.find j = pr
      · have hLv : (if b.find i = cr then pr else b.find i) = b.find i := by
          rw [if_neg (fun h => hmi (Or.inl h))]
        have hRv : (if b.find j = cr then pr else b.find j) = pr := by
          rcases hmj with h | h <;> simp [h, hnecp]
        rw [hLv, hRv]
        constructor
        · intro h
          exact absurd (Or.inr h) hmi
        · rintro (h | ⟨h1, h2⟩ | ⟨h1, h2⟩)
          · have heq := (hclass i hi j hj).2 h
            rw [← heq] at hmj
            exact absurd hmj hmi
          · exact absurd (by
              have := (hclass i hi r1 hr1).2 h1
              rw [this]
              exact hfr1) hmi
          · exact absurd (by
              have := (hclass i hi r2 hr2).2 h1
              rw [this]
              exact hfr2) hmi
      · have hLv : (if b.find i = cr then pr else b.find i) = b.find i := by
          rw [if_neg (fun h => hmi (Or.inl h))]
        have hRv : (if b.find j = cr then pr else b.find j) = b.find j := by
          rw [if_neg (fun h => hmj (Or.inl h))]
        rw [hLv, hRv, hclass i hi j hj]
        constructor
        · exact fun h => Or.inl h
        · rintro (h | ⟨h1, h2⟩ | ⟨h1, h2⟩)
          · exact h
          · exact absurd (by
              have := (hclass i hi r1 hr1).2 h1
              rw [this]
              exact hfr1) hmi
          · exact absurd (by
              have := (hclass i hi r2 hr2).2 h1
              rw [this]
              exact hfr2) hmi
  · intro r hr
    rw [hrowseq] at hr
    rw [hfind r hr]
    by_cases hmr : b.find r = cr ∨ b.find r = pr
    · have hLv : (if b.find r = cr then pr else b.find r) = pr := by
        rcases hmr with h | h <;> simp [h, hnecp]
      rw [hLv]
      constructor
      · intro _
        obtain ⟨s, hs, hseq, hsp⟩ := hprmem
        exact ⟨s, by rw [hrowseq]; exact hs, by rw [hseq], hsp⟩
      · intro _
        exact (hactchar pr hnecp).2 hprb
    · have hne : b.find r ≠ cr := fun h => hmr (Or.inl h)
      have hnep : b.find r ≠ pr := fun h => hmr (Or.inr h)
      have hLv : (if b.find r = cr then pr else b.find r) = b.find r := if_neg hne
      rw [hLv, hactchar _ hne, hactive r hr]
      constructor
      · rintro ⟨s, hs, hseq, hsp⟩
        refine ⟨s, by rw [hrowseq]; exact hs, ?_, (specialRow_congr hrowseq hpq s).2 hsp⟩
        rw [hfind s hs, if_neg (by rw [hseq]; exact hne), hseq]
      · rintro ⟨s, hs, hseq, hsp⟩
        rw [hrowseq] at hs
        rw [hfind s hs] at hseq
        by_cases hsc : b.find s = cr
        · rw [if_pos hsc] at hseq
          exact absurd hseq.symm hnep
        · rw [if_neg hsc] at hseq
          exact ⟨s, hs, hseq, (specialRow_congr hrowseq hpq s).1 hsp⟩
end Topology
namespace Topology
open Breadboard

theorem insertNet_mem {s : List Nat} {x : Nat} (h : x ∈ s) : insertNet s x = s :=
  if_pos h

theorem union_fields (b : Breadboard) (r1 r2 : Nat) :
    (b.union r1 r2).ROWS = b.ROWS ∧
    (b.union r1 r2).row_pin_index = b.row_pin_index ∧
    (b.union r1 r2).placed_wires = b.placed_wires ∧
    (b.union r1 r2).placed_components = b.placed_components ∧
    (b.union r1 r2).component_counter = b.component_counter := by
  unfold Breadboard.union
  dsimp only
  split_ifs <;> exact ⟨rfl, rfl, rfl, rfl, rfl⟩

theorem rail_root_active {b : Breadboard} (hb : Inv b) {q : Nat}
    (hq : IsRoot b.uf_parent q) (hqn : q < b.ROWS)
    (hrail : q = b.VDD_ROW ∨ q = b.VSS_ROW) : q ∈ b.active_nets := by
  have hfq : b.find q = q := find_fixed hq
  have := (hb.hactive q hqn).2 ⟨q, hqn, by rw [hfq], by
    unfold specialRow
    rcases hrail with h | h
    · exact Or.inr (Or.inl h)
    · exact Or.inl h⟩
  rwa [hfq] at this

theorem inv_wire_samenet {b b' : Breadboard} (hb : Inv b) {r1 r2 : Nat}
    (hr1 : r1 < b.ROWS) (hr2 : r2 < b.ROWS) (hneq : r1 ≠ r2)
    (hrowseq : b'.ROWS = b.ROWS) (hpq : b'.row_pin_index = b.row_pin_index)
    (hwq : b'.placed_wires = b.placed_wires ++ [pairKey r1 r2])
    (huf : b'.uf_parent = b.uf_parent)
    (hac : b'.active_nets = b.active_nets)
    (hsame : b.find r1 = b.find r2) :
    Inv b' := by
  have hfind : ∀ i, b'.find i = b.find i := by
    intro i
    show ufFind b'.uf_parent b'.ROWS i = _
    rw [huf, hrowseq]
    rfl
  refine ⟨by rw [hrowseq]; exact hb.hrows,
          by rw [huf, hrowseq]; exact hb.hlen,
          ?_, ?_,
          by rw [hpq, hrowseq]; exact hb.hpinlen,
          ?_, ?_, ?_, ?_⟩
  · intro i hi
    rw [hrowseq] at hi
    rw [huf, hrowseq]
    exact hb.hbound i hi
  · intro i hi
    rw [hrowseq] at hi
    rw [huf, hrowseq]
    exact hb.hsettle i hi
  · intro w hw
    rw [hwq] at hw
    rw [hrowseq]
    rcases List.mem_append.1 hw with hw2 | hw2
    · exact hb.hwires w hw2
    · simp only [List.mem_singleton] at hw2
      subst hw2
      unfold Breadboard.pairKey
      constructor
      · omega
      · simp only [Nat.max_lt]; exact ⟨hr1, hr2⟩
  · intro r hrp
    have hold : b.pins_in_row r ≠ [] := by
      unfold Breadboard.pins_in_row at hrp ⊢
      rwa [hpq] at hrp
    have h2 := hb.hpins r hold
    unfold Breadboard.VIN_ROW Breadboard.VOUT_ROW at h2 ⊢
    rw [hrowseq]
    exact h2
  · intro i hi j hj
    rw [hrowseq] at hi hj
    rw [hfind i, hfind j, wireReach_extend hwq i j, hb.hclass i hi j hj]
    have h12 : wireReach b r1 r2 := (hb.hclass r1 hr1 r2 hr2).1 hsame
    constructor
    · exact fun h => Or.inl h
    · rintro (h | ⟨h1, h2⟩ | ⟨h1, h2⟩)
      · exact h
      · exact (h1.trans h12).trans h2
      · exact (h1.trans (wireReach_symm h12)).trans h2
  · intro r hr
    rw [hrowseq] at hr
    rw [hfind r, hac, hb.hactive r hr]
    constructor
    · rintro ⟨s, hs, hseq, hsp⟩
      exact ⟨s, by rw [hrowseq]; exact hs, by rw [hfind s]; exact hseq,
        (specialRow_congr hrowseq hpq s).2 hsp⟩
    · rintro ⟨s, hs, hseq, hsp⟩
      rw [hrowseq] at hs
      rw [hfind s] at hseq
      exact ⟨s, hs, hseq, (specialRow_congr hrowseq hpq s).1 hsp⟩
end Topology
namespace Topology
open Breadboard

theorem can_place_wire_parts {b : Breadboard} {r1 r2 : Nat}
    (h : b.can_place_wire r1 r2 = true) :
    r1 ≠ r2 ∧ r1 < b.ROWS ∧ r2 < b.ROWS ∧ pairKey r1 r2 ∉ b.placed_wires ∧
      (b.is_row_active r1 = true ∨ b.is_row_active r2 = true) := by
  unfold Breadboard.can_place_wire at h
  by_cases h1 : r1 = r2
  · rw [if_pos h1] at h; cases h
  · rw [if_neg h1] at h
    by_cases h2 : pairKey r1 r2 ∈
        [pairKey b.VIN_ROW b.VSS_ROW, pairKey b.VOUT_ROW b.VDD_ROW,
         pairKey b.VSS_ROW b.VOUT_ROW, pairKey b.VIN_ROW b.VOUT_ROW]
    · rw [if_pos h2] at h; cases h
    · rw [if_neg h2] at h
      by_cases h3 : r1 < b.ROWS ∧ r2 < b.ROWS
      · rw [if_neg (not_not_intro h3)] at h
        by_cases h4 : pairKey r1 r2 ∈ b.placed_wires
        · rw [if_pos h4] at h; cases h
        · rw [if_neg h4] at h
          by_cases h5 : b.is_row_active r1 = true ∨ b.is_row_active r2 = true
          · exact ⟨h1, h3.1, h3.2, h4, h5⟩
          · rw [if_pos h5] at h
            cases h
      · rw [if_pos h3] at h; cases h

theorem union_char (b : Breadboard) (r1 r2 : Nat) :
    (b.find r1 = b.find r2 ∧ b.union r1 r2 = b) ∨
    (b.find r1 ≠ b.find r2 ∧ (
      ((b.union r1 r2).uf_parent = b.uf_parent.set (b.find r2) (b.find r1) ∧
       (b.union r1 r2).active_nets = b.active_nets ∧
       (b.find r1 = b.VDD_ROW ∨ b.find r1 = b.VSS_ROW)) ∨
      ((b.union r1 r2).uf_parent = b.uf_parent.set (b.find r1) (b.find r2) ∧
       (b.union r1 r2).active_nets = b.active_nets ∧
       (b.find r2 = b.VDD_ROW ∨ b.find r2 = b.VSS_ROW)) ∨
      ((b.union r1 r2).uf_parent = b.uf_parent.set (b.find r2) (b.find r1) ∧
       (b.union r1 r2).active_nets = b.active_nets.erase (b.find r2) ∧
       b.find r1 ∈ b.active_nets ∧ b.find r2 ∈ b.active_nets) ∨
      ((b.union r1 r2).uf_parent = b.uf_parent.set (b.find r2) (b.find r1) ∧
       (b.union r1 r2).active_nets = b.active_nets ∧
       b.find r1 ∈ b.active_nets) ∨
      ((b.union r1 r2).uf_parent = b.uf_parent.set (b.find r1) (b.find r2) ∧
       (b.union r1 r2).active_nets = b.active_nets ∧
       b.find r2 ∈ b.active_nets) ∨
      ((b.union r1 r2).uf_parent = b.uf_parent.set (b.find r2) (b.find r1) ∧
       (b.union r1 r2).active_nets = b.active_nets ∧
       b.find r1 ∉ b.active_nets ∧ b.find r2 ∉ b.active_nets))) := by
  unfold Breadboard.union
  dsimp only
  split_ifs with h1 h2 h3 h4 h5 h6
  · exact Or.inl ⟨h1, rfl⟩
  · exact Or.inr ⟨h1, Or.inl ⟨rfl, rfl, h2⟩⟩
  · exact Or.inr ⟨h1, Or.inr (Or.inl ⟨rfl, rfl, h3⟩)⟩
  · exact Or.inr ⟨h1, Or.inr (Or.inr (Or.inl ⟨rfl, rfl, h4.1, h4.2⟩))⟩
  · exact Or.inr ⟨h1, Or.inr (Or.inr (Or.inr (Or.inl ⟨rfl, rfl, h5⟩)))⟩
  · exact Or.inr ⟨h1, Or.inr (Or.inr (Or.inr (Or.inr (Or.inl ⟨rfl, rfl, h6⟩))))⟩
  · refine Or.inr ⟨h1, Or.inr (Or.inr (Or.inr (Or.inr (Or.inr ⟨rfl, rfl, h5, h6⟩))))⟩
end Topology
namespace Topology
open Breadboard

theorem inv_wire {b b' : Breadboard} (hb : Inv b) {r1 r2 : Nat}
    (hcan : b.can_place_wire r1 r2 = true)
    (h : b.place_wire r1 r2 = some b') : Inv b' := by
  obtain ⟨hneq, hr1, hr2, hnodup, hact⟩ := can_place_wire_parts hcan
  unfold Breadboard.place_wire at h
  rw [if_pos ⟨hr1, hr2⟩] at h
  dsimp only at h
  rw [if_neg hnodup] at h
  have hEq := Option.some.inj h
  set W : Breadboard := { b with placed_wires := b.placed_wires ++ [pairKey r1 r2] }
    with hWdef
  have hWfind : ∀ x, W.find x = b.find x := fun _ => rfl
  have hWrows : W.ROWS = b.ROWS := rfl
  have hWuf : W.uf_parent = b.uf_parent := rfl
  have hWact : W.active_nets = b.active_nets := rfl
  have hWvdd : W.VDD_ROW = b.VDD_ROW := rfl
  have hWvss : W.VSS_ROW = b.VSS_ROW := rfl
  have hrows' : b'.ROWS = b.ROWS := by
    rw [← hEq]; exact (union_fields W r1 r2).1
  have hpin' : b'.row_pin_index = b.row_pin_index := by
    rw [← hEq]; exact (union_fields W r1 r2).2.1
  have hwires' : b'.placed_wires = b.placed_wires ++ [pairKey r1 r2] := by
    rw [← hEq]; exact (union_fields W r1 r2).2.2.1
  have huf' : b'.uf_parent = (W.union r1 r2).uf_parent := by rw [← hEq]
  have hact' : b'.active_nets =
      insertNet (W.union r1 r2).active_nets ((W.union r1 r2).find r1) := by
    rw [← hEq]
  have hactR1 : b.find r1 ∈ b.active_nets ∨ b.find r2 ∈ b.active_nets := by
    unfold Breadboard.is_row_active at hact
    rcases hact with h5 | h5
    · exact Or.inl (by simpa using h5)
    · exact Or.inr (by simpa using h5)
  have hroot1 : IsRoot b.uf_parent (b.find r1) := find_isRoot hb hr1
  have hroot2 : IsRoot b.uf_parent (b.find r2) := find_isRoot hb hr2
  have hlt1 : b.find r1 < b.ROWS := find_lt hb hr1
  have hlt2 : b.find r2 < b.ROWS := find_lt hb hr2
  have hfindB1 : ∀ cr pr, (W.union r1 r2).uf_parent = b.uf_parent.set cr pr →
      IsRoot b.uf_parent cr → IsRoot b.uf_parent pr → pr ≠ cr →
      cr < b.ROWS → pr < b.ROWS →
      (W.union r1 r2).find r1 = if b.find r1 = cr then pr else b.find r1 := by
    intro cr pr hu hc hp hne hcn hpn
    show ufFind (W.union r1 r2).uf_parent (W.union r1 r2).ROWS r1 = _
    rw [hu, (union_fields W r1 r2).1, hWrows]
    exact (set_preserves b.ROWS b.uf_parent hb.hlen hb.hbound hb.hsettle
      hc hp hne hcn hpn).2.2.2 r1 hr1
  have hUC := union_char W r1 r2
  simp only [hWfind, hWuf, hWact, hWvdd, hWvss] at hUC
  rcases hUC with ⟨hsame, hUeq⟩ | ⟨hdiff, hcase⟩
  · -- both endpoints already on the same net
    have hmem : b.find r1 ∈ b.active_nets := by
      rcases hactR1 with h5 | h5
      · exact h5
      · rwa [← hsame] at h5
    refine inv_wire_samenet hb hr1 hr2 hneq hrows' hpin' hwires' ?_ ?_ hsame
    · rw [huf', hUeq, hWuf]
    · rw [hact', hUeq]
      show insertNet W.active_nets (W.find r1) = b.active_nets
      rw [hWact, hWfind r1]
      exact insertNet_mem hmem
  · rcases hcase with ⟨hu, ha, hrail⟩ | ⟨hu, ha, hrail⟩ |
      ⟨hu, ha, ha1, ha2⟩ | ⟨hu, ha, ha1⟩ | ⟨hu, ha, ha2⟩ | ⟨hu, ha, hn1, hn2⟩
    · -- find r1 is a rail root: child find r2, parent find r1
      have hne : b.find r1 ≠ b.find r2 := hdiff
      have hprb : b.find r1 ∈ b.active_nets :=
        rail_root_active hb hroot1 hlt1 hrail
      have hB1 : (W.union r1 r2).find r1 = b.find r1 := by
        rw [hfindB1 (b.find r2) (b.find r1) hu hroot2 hroot1 hne hlt2 hlt1,
          if_neg hne]
      refine inv_after_set_wire hb hr1 hr2 hrows' hpin' hwires'
        (by rw [huf', hu]) (Or.inr ⟨rfl, rfl⟩) hprb ?_ hne
      intro z _
      rw [hact', ha, hB1, insertNet_mem hprb]
    · -- find r2 is a rail root
      have hne : b.find r2 ≠ b.find r1 := fun hx => hdiff hx.symm
      have hprb : b.find r2 ∈ b.active_nets :=
        rail_root_active hb hroot2 hlt2 hrail
      have hB1 : (W.union r1 r2).find r1 = b.find r2 := by
        rw [hfindB1 (b.find r1) (b.find r2) hu hroot1 hroot2 hne hlt1 hlt2,
          if_pos rfl]
      refine inv_after_set_wire hb hr1 hr2 hrows' hpin' hwires'
        (by rw [huf', hu]) (Or.inl ⟨rfl, rfl⟩) hprb ?_ hne
      intro z _
      rw [hact', ha, hB1, insertNet_mem hprb]
    · -- both nets active: the second net's root is dropped from the active set
      have hne : b.find r1 ≠ b.find r2 := hdiff
      have hB1 : (W.union r1 r2).find r1 = b.find r1 := by
        rw [hfindB1 (b.find r2) (b.find r1) hu hroot2 hroot1 hne hlt2 hlt1,
          if_neg hne]
      have hmemerase : b.find r1 ∈ b.active_nets.erase (b.find r2) :=
        (List.mem_erase_of_ne hne).2 ha1
      refine inv_after_set_wire hb hr1 hr2 hrows' hpin' hwires'
        (by rw [huf', hu]) (Or.inr ⟨rfl, rfl⟩) ha1 ?_ hne
      intro z hz
      rw [hact', ha, hB1, insertNet_mem hmemerase]
      exact List.mem_erase_of_ne hz
    · -- only the first net is active
      have hne : b.find r1 ≠ b.find r2 := hdiff
      have hB1 : (W.union r1 r2).find r1 = b.find r1 := by
        rw [hfindB1 (b.find r2) (b.find r1) hu hroot2 hroot1 hne hlt2 hlt1,
          if_neg hne]
      refine inv_after_set_wire hb hr1 hr2 hrows' hpin' hwires'
        (by rw [huf', hu]) (Or.inr ⟨rfl, rfl⟩) ha1 ?_ hne
      intro z _
      rw [hact', ha, hB1, insertNet_mem ha1]
    · -- only the second net is active
      have hne : b.find r2 ≠ b.find r1 := fun hx => hdiff hx.symm
      have hB1 : (W.union r1 r2).find r1 = b.find r2 := by
        rw [hfindB1 (b.find r1) (b.find r2) hu hroot1 hroot2 hne hlt1 hlt2,
          if_pos rfl]
      refine inv_after_set_wire hb hr1 hr2 hrows' hpin' hwires'
        (by rw [huf', hu]) (Or.inl ⟨rfl, rfl⟩) ha2 ?_ hne
      intro z _
      rw [hact', ha, hB1, insertNet_mem ha2]
    · -- neither net active: impossible for a legal wire
      exact absurd hactR1 (by simp [hn1, hn2])
end Topology
namespace Topology
open Breadboard

theorem parentOf_range {n x : Nat} : parentOf (List.range n) x = x := by
  unfold parentOf
  rcases Nat.lt_or_ge x n with h | h
  · simp [List.getD_eq_getElem?_getD, List.getElem?_range h]
  · rw [List.getD_eq_getElem?_getD, List.getElem?_eq_none (by simpa using h)]
    rfl

theorem ufFind_range {n fuel x : Nat} : ufFind (List.range n) fuel x = x :=
  Function.iterate_fixed parentOf_range fuel

theorem blank_active {n : Nat} (h : 6 ≤ n) :
    (Breadboard.blank n).active_nets = [0, n - 1, 1, n - 2] := by
  have h1 : insertNet [] 0 = [0] := rfl
  have h2 : insertNet [0] (n - 1) = [0, n - 1] := by
    unfold Breadboard.insertNet
    rw [if_neg (by intro hc; simp at hc; omega)]
    rfl
  have h3 : insertNet [0, n - 1] 1 = [0, n - 1, 1] := by
    unfold Breadboard.insertNet
    rw [if_neg (by intro hc; simp at hc; omega)]
    rfl
  have h4 : insertNet [0, n - 1, 1] (n - 2) = [0, n - 1, 1, n - 2] := by
    unfold Breadboard.insertNet
    rw [if_neg (by intro hc; simp at hc; omega)]
    rfl
  show insertNet (insertNet (insertNet (insertNet [] 0) (n - 1)) 1) (n - 2) = _
  rw [h1, h2, h3, h4]

theorem length_foldl_set (g : Nat × Nat → PinRecord) (l : List (Nat × Nat)) :
    ∀ rows : List (List PinRecord),
      (l.foldl (fun rs ir => rs.set ir.2 (rs.getD ir.2 [] ++ [g ir])) rows).length
        = rows.length := by
  induction l with
  | nil => intro rows; rfl
  | cons a rest ih =>
    intro rows
    simp only [List.foldl_cons]
    rw [ih, List.length_set]

theorem can_place_component_work {b : Breadboard} {kind : String}
    {info : ComponentInfo} {r : Nat} (hget : catalogGet kind = some info)
    (h : b.can_place_component kind r = true) :
    kind ≠ "wire" ∧ b.WORK_START_ROW ≤ r ∧
      r + info.pin_count - 1 ≤ b.WORK_END_ROW := by
  unfold Breadboard.can_place_component at h
  rw [hget] at h
  dsimp only at h
  by_cases hw : kind = "wire"
  · rw [if_pos hw] at h; cases h
  · rw [if_neg hw] at h
    by_cases hm : ¬ (info.can_place_multiple = true) ∧ b.placedFlag kind = true
    · rw [if_pos hm] at h; cases h
    · rw [if_neg hm] at h
      by_cases hwork : b.WORK_START_ROW ≤ r ∧ r + info.pin_count - 1 ≤ b.WORK_END_ROW
      · exact ⟨hw, hwork.1, hwork.2⟩
      · rw [if_pos hwork] at h; cases h

theorem place_component_fields {b b' : Breadboard} {t : String} {r : Nat}
    (h : b.place_component t r = some b') : b'.ROWS = b.ROWS := by
  unfold Breadboard.place_component at h
  cases hc : catalogGet t with
  | none => rw [hc] at h; cases h
  | some info =>
    rw [hc] at h
    dsimp only at h
    by_cases hall : (List.range' r info.pin_count).all
        (fun p => decide (p < b.ROWS)) = true
    · rw [if_pos hall] at h
      rw [← Option.some.inj h]
    · rw [if_neg hall] at h; cases h

theorem componentActions_shape {b : Breadboard} {a : Action}
    (h : a ∈ b.componentActions) : ∃ k r, a = Action.place k r := by
  unfold Breadboard.componentActions at h
  obtain ⟨ci, hci, hmem⟩ := List.mem_flatMap.1 h
  by_cases hw : ci.1 = "wire"
  · rw [if_pos hw] at hmem; cases hmem
  · rw [if_neg hw] at hmem
    obtain ⟨q, hq, heq⟩ := List.mem_map.1 hmem
    exact ⟨ci.1, q, heq.symm⟩

theorem specialRow_lt {b : Breadboard} (hb : Inv b) {s : Nat}
    (h : specialRow b s) : s < b.ROWS := by
  have h6 := hb.hrows
  rcases h with h1 | h1 | h1 | h1 | h1
  · unfold Breadboard.VSS_ROW at h1; omega
  · unfold Breadboard.VDD_ROW at h1; omega
  · unfold Breadboard.VIN_ROW at h1; omega
  · unfold Breadboard.VOUT_ROW at h1; omega
  · rcases hb.hpins s h1 with ⟨h2, h3⟩ | h2 | h2
    · omega
    · unfold Breadboard.VIN_ROW at h2; omega
    · unfold Breadboard.VOUT_ROW at h2; omega

theorem union_rail1 {b : Breadboard} {r1 r2 : Nat}
    (hne : b.find r1 ≠ b.find r2)
    (hrail : b.find r1 = b.VDD_ROW ∨ b.find r1 = b.VSS_ROW) :
    (b.union r1 r2).uf_parent = b.uf_parent.set (b.find r2) (b.find r1) ∧
    (b.union r1 r2).active_nets = b.active_nets := by
  unfold Breadboard.union
  dsimp only
  rw [if_neg hne, if_pos hrail]
  exact ⟨rfl, rfl⟩

theorem union_rail2 {b : Breadboard} {r1 r2 : Nat}
    (hne : b.find r1 ≠ b.find r2)
    (hnorail : ¬ (b.find r1 = b.VDD_ROW ∨ b.find r1 = b.VSS_ROW))
    (hrail : b.find r2 = b.VDD_ROW ∨ b.find r2 = b.VSS_ROW) :
    (b.union r1 r2).uf_parent = b.uf_parent.set (b.find r1) (b.find r2) ∧
    (b.union r1 r2).active_nets = b.active_nets := by
  unfold Breadboard.union
  dsimp only
  rw [if_neg hne, if_neg hnorail, if_pos hrail]
  exact ⟨rfl, rfl⟩

theorem find_after_set {b b2 : Breadboard} (hb : Inv b)
    (hrows : b2.ROWS = b.ROWS) {cr pr : Nat}
    (hu : b2.uf_parent = b.uf_parent.set cr pr)
    (hc : IsRoot b.uf_parent cr) (hp : IsRoot b.uf_parent pr)
    (hne : pr ≠ cr) (hcn : cr < b.ROWS) (hpn : pr < b.ROWS) :
    ∀ i, i < b.ROWS → b2.find i = if b.find i = cr then pr else b.find i := by
  intro i hi
  show ufFind b2.uf_parent b2.ROWS i = _
  rw [hu, hrows]
  exact (set_preserves b.ROWS b.uf_parent hb.hlen hb.hbound hb.hsettle
    hc hp hne hcn hpn).2.2.2 i hi
end Topology
namespace Topology
open Breadboard

theorem inv_place {b b' : Breadboard} (hb : Inv b) {t : String} {r : Nat}
    {info : ComponentInfo} (hcat : catalogGet t = some info)
    (hrowsok : ∀ p ∈ List.range' r info.pin_count,
        (2 ≤ p ∧ p ≤ b.ROWS - 3) ∨ p = b.VIN_ROW ∨ p = b.VOUT_ROW)
    (h : b.place_component t r = some b') : Inv b' := by
  unfold Breadboard.place_component at h
  rw [hcat] at h
  dsimp only at h
  by_cases hall : (List.range' r info.pin_count).all
      (fun p => decide (p < b.ROWS)) = true
  · rw [if_pos hall] at h
    have hEq := Option.some.inj h
    set pins := List.range' r info.pin_count with hpinsdef
    set comp : Component := ⟨t, pins, b.component_counter + 1⟩ with hcompdef
    have hrows' : b'.ROWS = b.ROWS := by rw [← hEq]
    have huf' : b'.uf_parent = b.uf_parent := by rw [← hEq]
    have hwires' : b'.placed_wires = b.placed_wires := by rw [← hEq]
    have hrpi' : b'.row_pin_index =
        pins.enum.foldl (fun rs ir => rs.set ir.2 (rs.getD ir.2 [] ++
          [(⟨comp, ir.1⟩ : PinRecord)])) b.row_pin_index := by rw [← hEq]
    have hact' : b'.active_nets =
        pins.foldl (fun s p => insertNet s (b.find p)) b.active_nets := by
      rw [← hEq]
    have hvin : b'.VIN_ROW = b.VIN_ROW := rfl
    have hvout : b'.VOUT_ROW = b.VOUT_ROW := by
      unfold Breadboard.VOUT_ROW; rw [hrows']
    have hvss : b'.VSS_ROW = b.VSS_ROW := rfl
    have hvdd : b'.VDD_ROW = b.VDD_ROW := by
      unfold Breadboard.VDD_ROW; rw [hrows']
    have hallp : ∀ p ∈ pins, p < b.ROWS := by
      intro p hp
      have := List.all_eq_true.1 hall p hp
      simpa using this
    have hsnd : ∀ ir ∈ pins.enum, ir.2 ∈ pins := by
      intro ir hir
      have : ir.2 ∈ pins.enum.map Prod.snd := List.mem_map_of_mem _ hir
      rwa [List.enum_map_snd] at this
    have hpir : ∀ s, b'.pins_in_row s = b.pins_in_row s ++
        ((pins.enum.filter (fun ir => ir.2 == s)).map
          (fun ir => (⟨comp, ir.1⟩ : PinRecord))) := by
      intro s
      show b'.row_pin_index.getD s [] = _
      rw [hrpi']
      exact getD_foldl_set _ pins.enum b.row_pin_index
        (fun ir hir => by rw [hb.hpinlen]; exact hallp _ (hsnd ir hir)) s
    have hspecial : ∀ s, specialRow b' s ↔ (specialRow b s ∨ s ∈ pins) := by
      intro s
      unfold specialRow
      rw [hvss, hvdd, hvin, hvout]
      show _ ∨ _ ∨ _ ∨ _ ∨ b'.pins_in_row s ≠ [] ↔ _
      rw [hpir s]
      constructor
      · rintro (h1 | h1 | h1 | h1 | h1)
        · exact Or.inl (Or.inl h1)
        · exact Or.inl (Or.inr (Or.inl h1))
        · exact Or.inl (Or.inr (Or.inr (Or.inl h1)))
        · exact Or.inl (Or.inr (Or.inr (Or.inr (Or.inl h1))))
        · by_cases hold : b.pins_in_row s = []
          · rw [hold, List.nil_append] at h1
            obtain ⟨x, hx⟩ := List.exists_mem_of_ne_nil _ h1
            obtain ⟨ir, hir, -⟩ := List.mem_map.1 hx
            have hf := List.mem_filter.1 hir
            have hs : ir.2 = s := by simpa using hf.2
            exact Or.inr (hs ▸ hsnd ir hf.1)
          · exact Or.inl (Or.inr (Or.inr (Or.inr (Or.inr hold))))
      · rintro ((h1 | h1 | h1 | h1 | h1) | h1)
        · exact Or.inl h1
        · exact Or.inr (Or.inl h1)
        · exact Or.inr (Or.inr (Or.inl h1))
        · exact Or.inr (Or.inr (Or.inr (Or.inl h1)))
        · refine Or.inr (Or.inr (Or.inr (Or.inr ?_)))
          intro hcontra
          exact h1 (List.append_eq_nil.1 hcontra).1
        · refine Or.inr (Or.inr (Or.inr (Or.inr ?_)))
          have hmm : s ∈ pins.enum.map Prod.snd := by
            rw [List.enum_map_snd]; exact h1
          obtain ⟨ir, hir, hir2⟩ := List.mem_map.1 hmm
          have hmemf : ir ∈ pins.enum.filter (fun ir => ir.2 == s) :=
            List.mem_filter.2 ⟨hir, by simp [hir2]⟩
          exact List.ne_nil_of_mem (List.mem_append_right _
            (List.mem_map_of_mem _ hmemf))
    have hfind' : ∀ x, b'.find x = b.find x := by
      intro x
      show ufFind b'.uf_parent b'.ROWS x = _
      rw [huf', hrows']
      rfl
    have hws : wireStep b' = wireStep b := by
      funext x y
      unfold wireStep
      rw [hwires']
    have hwr : ∀ x y, wireReach b' x y ↔ wireReach b x y := by
      intro x y
      unfold wireReach
      rw [hws]
    refine ⟨?_, ?_, ?_, ?_, ?_, ?_, ?_, ?_, ?_⟩
    · rw [hrows']; exact hb.hrows
    · rw [huf', hrows']; exact hb.hlen
    · intro i hi
      rw [hrows'] at hi
      rw [huf', hrows']
      exact hb.hbound i hi
    · intro i hi
      rw [hrows'] at hi
      rw [huf', hrows']
      exact hb.hsettle i hi
    · have hlen : b'.row_pin_index.length = b.row_pin_index.length := by
        rw [hrpi']
        exact length_foldl_set _ pins.enum b.row_pin_index
      rw [hlen, hrows']
      exact hb.hpinlen
    · intro w hw
      rw [hwires'] at hw
      rw [hrows']
      exact hb.hwires w hw
    · intro s hne
      rw [hpir s] at hne
      have hgoal : (2 ≤ s ∧ s ≤ b.ROWS - 3) ∨ s = b.VIN_ROW ∨ s = b.VOUT_ROW := by
        by_cases hold : b.pins_in_row s = []
        · rw [hold, List.nil_append] at hne
          obtain ⟨x, hx⟩ := List.exists_mem_of_ne_nil _ hne
          obtain ⟨ir, hir, -⟩ := List.mem_map.1 hx
          have hf := List.mem_filter.1 hir
          have hs : ir.2 = s := by simpa using hf.2
          exact hrowsok s (hs ▸ hsnd ir hf.1)
        · exact hb.hpins s hold
      rw [hrows', hvin, hvout]
      exact hgoal
    · intro i hi j hj
      rw [hrows'] at hi hj
      rw [hfind' i, hfind' j, hwr i j]
      exact hb.hclass i hi j hj
    · intro q hq
      have hq' : q < b.ROWS := by rw [← hrows']; exact hq
      constructor
      · intro hmem
        rw [hfind' q, hact'] at hmem
        rcases (mem_foldl_insertNet b.find pins b.active_nets (b.find q)).1 hmem
          with hmem1 | ⟨p, hp, hpe⟩
        · obtain ⟨s, hs, hse, hsp⟩ := (hb.hactive q hq').1 hmem1
          exact ⟨s, by rw [hrows']; exact hs,
            by rw [hfind' s, hfind' q]; exact hse,
            (hspecial s).2 (Or.inl hsp)⟩
        · exact ⟨p, by rw [hrows']; exact hallp p hp,
            by rw [hfind' p, hfind' q]; exact hpe.symm,
            (hspecial p).2 (Or.inr hp)⟩
      · rintro ⟨s, hs, hse, hsp⟩
        rw [hrows'] at hs
        rw [hfind' s, hfind' q] at hse
        rw [hfind' q, hact']
        apply (mem_foldl_insertNet b.find pins b.active_nets (b.find q)).2
        rcases (hspecial s).1 hsp with hsp1 | hsp1
        · exact Or.inl ((hb.hactive q hq').2 ⟨s, hs, hse, hsp1⟩)
        · exact Or.inr ⟨s, hsp1, hse.symm⟩
  · rw [if_neg hall] at h; cases h
end Topology
namespace Topology
open Breadboard

theorem inv_blank {n : Nat} (h : 6 ≤ n) : Inv (Breadboard.blank n) := by
  have hR : (Breadboard.blank n).ROWS = n := rfl
  have hfind : ∀ x, (Breadboard.blank n).find x = x := fun _ => ufFind_range
  have hact := blank_active h
  have hpinnil : ∀ s, (Breadboard.blank n).pins_in_row s = [] := by
    intro s
    show (List.replicate n ([] : List PinRecord)).getD s [] = []
    rcases Nat.lt_or_ge s n with hs | hs
    · rw [List.getD_eq_getElem?_getD, List.getElem?_replicate]
      simp [hs]
    · rw [List.getD_eq_getElem?_getD,
        List.getElem?_eq_none (by simpa using hs)]
      rfl
  refine ⟨h, ?_, ?_, ?_, ?_, ?_, ?_, ?_, ?_⟩
  · exact List.length_range n
  · intro i hi
    show parentOf (List.range n) i < n
    rw [parentOf_range]
    exact hi
  · intro i hi
    show IsRoot (List.range n) (ufFind (List.range n) _ i)
    rw [ufFind_range]
    exact parentOf_range
  · exact List.length_replicate n []
  · intro w hw
    exact absurd hw (List.not_mem_nil w)
  · intro s hne
    exact absurd (hpinnil s) hne
  · intro i hi j hj
    rw [hfind i, hfind j]
    constructor
    · intro hij
      exact hij ▸ Relation.ReflTransGen.refl
    · intro hr
      induction hr with
      | refl => rfl
      | tail h1 h2 ih => exact absurd h2 (List.not_mem_nil _)
  · intro q hq
    rw [hfind q, hact]
    constructor
    · intro hmem
      refine ⟨q, hq, hfind q, ?_⟩
      have hmem' : q = 0 ∨ q = n - 1 ∨ q = 1 ∨ q = n - 2 := by
        simpa using hmem
      unfold specialRow Breadboard.VSS_ROW Breadboard.VDD_ROW
        Breadboard.VIN_ROW Breadboard.VOUT_ROW
      rw [hR]
      rcases hmem' with h1 | h1 | h1 | h1
      · exact Or.inl h1
      · exact Or.inr (Or.inl h1)
      · exact Or.inr (Or.inr (Or.inl h1))
      · exact Or.inr (Or.inr (Or.inr (Or.inl h1)))
    · rintro ⟨s, hs, hse, hsp⟩
      rw [hfind s] at hse
      subst hse
      unfold specialRow Breadboard.VSS_ROW Breadboard.VDD_ROW
        Breadboard.VIN_ROW Breadboard.VOUT_ROW at hsp
      rw [hR] at hsp
      rcases hsp with h1 | h1 | h1 | h1 | h1
      · subst h1; simp
      · subst h1; simp
      · subst h1; simp
      · subst h1; simp
      · exact absurd (hpinnil s) h1

theorem inv_fresh {n : Nat} (h : 6 ≤ n) : Inv (Breadboard.fresh n) := by
  have hb0 : Inv (Breadboard.blank n) := inv_blank h
  have hcat1 : catalogGet "vin" = some ⟨1, true, ["signal"], false⟩ := rfl
  have hR0 : (Breadboard.blank n).ROWS = n := rfl
  have hall1 : (List.range' 1 1).all
      (fun p => decide (p < (Breadboard.blank n).ROWS)) = true := by
    rw [hR0]
    simp
    omega
  obtain ⟨b1, hb1eq⟩ :
      ∃ b1, (Breadboard.blank n).place_component "vin" 1 = some b1 := by
    unfold Breadboard.place_component
    rw [hcat1]
    dsimp only
    rw [if_pos hall1]
    exact ⟨_, rfl⟩
  have hinv1 : Inv b1 := by
    refine inv_place hb0 hcat1 ?_ hb1eq
    intro p hp
    have hp' : p = 1 := by simpa using hp
    exact Or.inr (Or.inl hp')
  have hr1 : b1.ROWS = n := place_component_fields hb1eq
  have hcat2 : catalogGet "vout" = some ⟨1, true, ["signal"], false⟩ := rfl
  have hall2 : (List.range' (n - 2) 1).all
      (fun p => decide (p < b1.ROWS)) = true := by
    rw [hr1]
    simp
    omega
  obtain ⟨b2, hb2eq⟩ : ∃ b2, b1.place_component "vout" (n - 2) = some b2 := by
    unfold Breadboard.place_component
    rw [hcat2]
    dsimp only
    rw [if_pos hall2]
    exact ⟨_, rfl⟩
  have hinv2 : Inv b2 := by
    refine inv_place hinv1 hcat2 ?_ hb2eq
    intro p hp
    have hp' : p = n - 2 := by simpa using hp
    refine Or.inr (Or.inr ?_)
    show p = b1.VOUT_ROW
    unfold Breadboard.VOUT_ROW
    rw [hr1, hp']
  have hfr : Breadboard.fresh n = b2 := by
    unfold Breadboard.fresh
    rw [hb1eq]
    show (b1.place_component "vout" (n - 2)).getD (Breadboard.blank n) = b2
    rw [hb2eq]
    rfl
  rw [hfr]
  exact hinv2
end Topology
namespace Topology
open Breadboard

theorem inv_step {b b' : Breadboard} (hb : Inv b) {a : Action}
    (ha : a ∈ b.legal_actions) (h : b.apply_action a = some b') : Inv b' := by
  cases a with
  | stop =>
    have heq : b = b' := Option.some.inj h
    rwa [← heq]
  | wire r1 r2 =>
    have hcan : b.can_place_wire r1 r2 = true := by
      rcases List.mem_append.1 ha with h1 | h1
      · rcases List.mem_append.1 h1 with h2 | h2
        · obtain ⟨k, q, hkq⟩ := componentActions_shape h2
          cases hkq
        · obtain ⟨x, y, hxy, hcpw⟩ := wireActions_shape h2
          cases hxy
          exact hcpw
      · cases stopActions_shape h1
    exact inv_wire hb hcan h
  | place t r =>
    obtain ⟨ci, hci, hk, hw, hr, hcan⟩ :=
      mem_componentActions.1 (mem_legal_place.1 ha)
    subst hk
    have hcat : catalogGet ci.1 = some ci.2 := catalogGet_eq_some_iff.2 hci
    obtain ⟨hwire, hws, hwe⟩ := can_place_component_work hcat hcan
    refine inv_place hb hcat ?_ h
    intro p hp
    rw [List.mem_range'_1] at hp
    left
    unfold Breadboard.WORK_START_ROW at hws
    unfold Breadboard.WORK_END_ROW at hwe
    have hpc := catalog_pc_pos hcat
    omega

theorem reachable_inv {b : Breadboard} (h : Reachable b) : Inv b := by
  induction h with
  | base rows hr => exact inv_fresh hr
  | step hreach hmem happ ih => exact inv_step ih hmem happ
end Topology
namespace Topology
open Breadboard

/-- **C6** (amended): in every reachable board state a net is active — its
union-find root is in `active_nets` — exactly when it is reachable through
placed wires from a rail row, an input/output probe row, or a row holding a
placed component pin (component placement activates pin nets without wires). -/
theorem claim6_amended {b : Breadboard} (h : Reachable b) {r : Nat}
    (hr : r < b.ROWS) :
    b.find r ∈ b.active_nets ↔
      ∃ s, wireReach b s r ∧ specialRow b s := by
  have hb := reachable_inv h
  rw [hb.hactive r hr]
  constructor
  · rintro ⟨s, hs, hse, hsp⟩
    exact ⟨s, (hb.hclass s hs r hr).1 hse, hsp⟩
  · rintro ⟨s, hreach, hsp⟩
    have hs : s < b.ROWS := specialRow_lt hb hsp
    exact ⟨s, hs, (hb.hclass s hs r hr).2 hreach, hsp⟩

theorem claim6_amended_witness :
    (Breadboard.fresh 6).find 0 ∈ (Breadboard.fresh 6).active_nets ↔
      ∃ s, wireReach (Breadboard.fresh 6) s 0 ∧
        specialRow (Breadboard.fresh 6) s :=
  claim6_amended (Reachable.base 6 (by decide)) (by decide)

/-- **C7** (amended): for every reachable board and rows `x`, `y` with
`find x` a rail root: if `find y` is not a rail root, the merged net's
representative after `union` is `find x`'s rail in either argument order;
if `find y` is a distinct rail root, the representative is the *first*
argument's rail root, so it does depend on argument order. -/
theorem claim7_amended {b : Breadboard} (h : Reachable b) {x y : Nat}
    (hx : x < b.ROWS) (hy : y < b.ROWS)
    (hxr : b.find x = b.VDD_ROW ∨ b.find x = b.VSS_ROW) :
    (¬ (b.find y = b.VDD_ROW ∨ b.find y = b.VSS_ROW) →
      (b.union x y).find y = b.find x ∧ (b.union y x).find y = b.find x) ∧
    ((b.find y = b.VDD_ROW ∨ b.find y = b.VSS_ROW) → b.find x ≠ b.find y →
      (b.union x y).find y = b.find x ∧ (b.union y x).find x = b.find y) := by
  have hb := reachable_inv h
  have hrx := find_isRoot hb hx
  have hry := find_isRoot hb hy
  have hlx := find_lt hb hx
  have hly := find_lt hb hy
  constructor
  · intro hyn
    have hne : b.find x ≠ b.find y := fun he => hyn (he ▸ hxr)
    have h1 := union_rail1 hne hxr
    have hr1 : (b.union x y).ROWS = b.ROWS := (union_fields b x y).1
    have hf1 := find_after_set hb hr1 h1.1 hry hrx hne hly hlx y hy
    rw [if_pos rfl] at hf1
    have hne2 : b.find y ≠ b.find x := fun he => hne he.symm
    have h2 := union_rail2 hne2 hyn hxr
    have hr2 : (b.union y x).ROWS = b.ROWS := (union_fields b y x).1
    have hf2 := find_after_set hb hr2 h2.1 hry hrx hne hly hlx y hy
    rw [if_pos rfl] at hf2
    exact ⟨hf1, hf2⟩
  · intro hyr hne
    have h1 := union_rail1 hne hxr
    have hr1 : (b.union x y).ROWS = b.ROWS := (union_fields b x y).1
    have hf1 := find_after_set hb hr1 h1.1 hry hrx hne hly hlx y hy
    rw [if_pos rfl] at hf1
    have hne2 : b.find y ≠ b.find x := fun he => hne he.symm
    have h2 := union_rail1 hne2 hyr
    have hr2 : (b.union y x).ROWS = b.ROWS := (union_fields b y x).1
    have hf2 := find_after_set hb hr2 h2.1 hrx hry hne2 hlx hly x hx
    rw [if_pos rfl] at hf2
    exact ⟨hf1, hf2⟩

theorem claim7_amended_witness :
    (¬ ((Breadboard.fresh 6).find 2 = (Breadboard.fresh 6).VDD_ROW ∨
        (Breadboard.fresh 6).find 2 = (Breadboard.fresh 6).VSS_ROW) →
      ((Breadboard.fresh 6).union 5 2).find 2 = (Breadboard.fresh 6).find 5 ∧
      ((Breadboard.fresh 6).union 2 5).find 2 = (Breadboard.fresh 6).find 5) ∧
    (((Breadboard.fresh 6).find 2 = (Breadboard.fresh 6).VDD_ROW ∨
      (Breadboard.fresh 6).find 2 = (Breadboard.fresh 6).VSS_ROW) →
      (Breadboard.fresh 6).find 5 ≠ (Breadboard.fresh 6).find 2 →
      ((Breadboard.fresh 6).union 5 2).find 2 = (Breadboard.fresh 6).find 5 ∧
      ((Breadboard.fresh 6).union 2 5).find 5 = (Breadboard.fresh 6).find 2) :=
  claim7_amended (Reachable.base 6 (by decide)) (by decide) (by decide)
    (by decide)

/-- **C10** (confirmed): on every reachable board where the ground-to-supply
wire has not already been placed, `can_place_wire(VSS_ROW, VDD_ROW)` returns
true — the pair is none of the four forbidden probe/rail shorts, both rails
are in range and active, and no gate or base pin can sit on a rail row. -/
theorem claim10_rail_to_rail_wire_legal {b : Breadboard} (h : Reachable b)
    (hnot : pairKey b.VSS_ROW b.VDD_ROW ∉ b.placed_wires) :
    b.can_place_wire b.VSS_ROW b.VDD_ROW = true := by
  have hb := reachable_inv h
  have h6 := hb.hrows
  have e1 : b.VSS_ROW = 0 := rfl
  have e2 : b.VDD_ROW = b.ROWS - 1 := rfl
  have e3 : b.VIN_ROW = 1 := rfl
  have e4 : b.VOUT_ROW = b.ROWS - 2 := rfl
  have hpin0 : b.pins_in_row 0 = [] := by
    by_contra hc
    rcases hb.hpins 0 hc with ⟨h1, h2⟩ | h1 | h1
    · omega
    · rw [e3] at h1; omega
    · rw [e4] at h1; omega
  have hpinN : b.pins_in_row (b.ROWS - 1) = [] := by
    by_contra hc
    rcases hb.hpins (b.ROWS - 1) hc with ⟨h1, h2⟩ | h1 | h1
    · omega
    · rw [e3] at h1; omega
    · rw [e4] at h1; omega
  have hg0 : b.row_has_gate_pin 0 = false := by
    unfold Breadboard.row_has_gate_pin
    rw [hpin0]
    rfl
  have hgN : b.row_has_gate_pin (b.ROWS - 1) = false := by
    unfold Breadboard.row_has_gate_pin
    rw [hpinN]
    rfl
  have hbp0 : b.row_has_base_pin 0 = false := by
    unfold Breadboard.row_has_base_pin
    rw [hpin0]
    rfl
  have hbpN : b.row_has_base_pin (b.ROWS - 1) = false := by
    unfold Breadboard.row_has_base_pin
    rw [hpinN]
    rfl
  have hval : b.validate_control_pin_wiring 0 (b.ROWS - 1) = true := by
    unfold Breadboard.validate_control_pin_wiring
    rw [hg0, hgN, hbp0, hbpN]
    rfl
  have hact0 : b.is_row_active 0 = true := by
    unfold Breadboard.is_row_active
    rw [decide_eq_true_eq]
    exact (hb.hactive 0 (by omega)).2 ⟨0, by omega, rfl, Or.inl rfl⟩
  have hforb : pairKey 0 (b.ROWS - 1) ∉
      [pairKey 1 0, pairKey (b.ROWS - 2) (b.ROWS - 1),
       pairKey 0 (b.ROWS - 2), pairKey 1 (b.ROWS - 2)] := by
    intro hc
    rcases List.mem_cons.1 hc with h1 | hc
    · rw [pairKey_eq_iff] at h1; omega
    rcases List.mem_cons.1 hc with h1 | hc
    · rw [pairKey_eq_iff] at h1; omega
    rcases List.mem_cons.1 hc with h1 | hc
    · rw [pairKey_eq_iff] at h1; omega
    rcases List.mem_cons.1 hc with h1 | hc
    · rw [pairKey_eq_iff] at h1; omega
    exact absurd hc (List.not_mem_nil _)
  rw [e1, e2] at hnot
  unfold Breadboard.can_place_wire
  rw [e1, e2, e3, e4]
  rw [if_neg (by omega : ¬ (0 : Nat) = b.ROWS - 1)]
  rw [if_neg hforb]
  rw [if_neg (not_not_intro ⟨by omega, by omega⟩)]
  rw [if_neg hnot]
  rw [if_neg (not_not_intro (Or.inl hact0))]
  rw [if_neg (not_not_intro hval)]

theorem claim10_rail_to_rail_wire_legal_witness :
    (Breadboard.fresh 6).can_place_wire (Breadboard.fresh 6).VSS_ROW
      (Breadboard.fresh 6).VDD_ROW = true :=
  claim10_rail_to_rail_wire_legal (Reachable.base 6 (by decide)) (by decide)
end Topology
